import Mathlib

/-!
Verification of the NOVA persistent-memory filesystem core: the copy-on-write
data path (`dax.c`), the per-block checksum / stripe-parity integrity layer
(`parity.c`), and the per-CPU lite journal (`journal.c`).

The C sources are shallowly embedded: buffers are `List Nat` of byte values,
persistent memory is a byte-addressed function `Nat → Nat`, machine integers
are `Nat`/`Int`, loops are structural recursions (with an explicit fuel
argument where the C loop is governed by a data-dependent cursor), and the
external collaborators the core consumes (allocator, log-address arithmetic,
the CRC32C library primitive) are modelled from the specification where their
code is not part of the analysed sources.
-/

/-! ## Error codes (linux errno values used by the sources) -/

def eio    : Int := 5

def enomem : Int := 12

def eacces : Int := 13

def efault : Int := 14

def einval : Int := 22

def enospc : Int := 28

/-! ## CRC32C checksum primitive

`crc32c` is the kernel library routine consumed by `nova_calc_data_csum` and
by the journal checksum helpers; its code is not among the analysed sources.
Modelled from the spec: `compute_checksum(seed, buffer, length)` is CRC32C and
"supports incremental computation by chaining `seed` across calls so
partial-block and whole-block paths produce byte-identical results to a
single-call computation over the equivalent byte range".  We implement the
standard reflected CRC-32C (Castagnoli) bit algorithm as a left fold over the
byte list, which has exactly that chaining property. -/

/-- One bit round of reflected CRC-32C (polynomial 0x82F63B78). -/
def crc32cRound (c : Nat) : Nat :=
  if c % 2 = 1 then (c / 2) ^^^ 0x82F63B78 else c / 2

/-- Fold one byte into a CRC-32C accumulator (8 bit rounds). -/
def crc32cByte (c b : Nat) : Nat :=
  crc32cRound (crc32cRound (crc32cRound (crc32cRound
    (crc32cRound (crc32cRound (crc32cRound (crc32cRound (c ^^^ b % 256))))))))

/-- `crc32c init buf`: CRC-32C of a byte list, chained from `init`. -/
def crc32c (c : Nat) (buf : List Nat) : Nat :=
  buf.foldl crc32cByte c

/-- dax.c `nova_calc_data_csum`: the data checksum is `crc32c(init, buf, size)`. -/
def nova_calc_data_csum (init : Nat) (buf : List Nat) : Nat :=
  crc32c init buf

/-- `NOVA_INIT_CSUM` from nova.h (not among the analysed sources); its exact
value is immaterial to every claim, we fix it to the CRC seed `~0`. -/
def NOVA_INIT_CSUM : Nat := 0xFFFFFFFF

/-- Little-endian byte serialization of a value on `n` bytes. -/
def leBytes (n v : Nat) : List Nat :=
  (List.range n).map (fun i => v / 256 ^ i % 256)

/-- `nova_crc32c_qword(qwd, acc)` (checksum.c, not among the analysed sources):
the hardware-accelerated step folding one 64-bit little-endian word into a
CRC32C accumulator.  Modelled from the spec: the unrolled word path "must
produce bit-identical output to the generic byte loop", so the word step is
the byte fold over the word's eight little-endian bytes. -/
def nova_crc32c_qword (qwd acc : Nat) : Nat :=
  crc32c acc (leBytes 8 qwd)

/-! ## Stripe XOR parity

parity.c `nova_calculate_block_parity` computes, over a block divided into
`num_strps` equal stripes, the bytewise XOR of all stripes.  Both its SSE2
path and its generic path combine the stripes chunkwise (128-bit or 64-bit
chunks); we model a stripe as the list of its 64-bit words (the generic
path's `u64` reads at `block[(strp << strp_shift) + i]`), a block as the list
of its stripes, and chunkwise XOR as `zipWith Nat.xor`. -/

def zipXor (a b : List Nat) : List Nat := List.zipWith Nat.xor a b

/-- parity.c `nova_calculate_block_parity`: parity word `i` is the XOR of
word `i` across every stripe; the accumulator starts from stripe 0 and folds
stripes `1 .. num_strps-1` into it. -/
def nova_calculate_block_parity (stripes : List (List Nat)) : List Nat :=
  match stripes with
  | [] => []
  | s :: rest => rest.foldl zipXor s

/-- XOR-sum of a list of stripes, with the all-zeroes stripe as the unit. -/
def xorAll (L : Nat) (l : List (List Nat)) : List Nat :=
  l.foldr zipXor (List.replicate L 0)

structure CsumSt where
  stored : List (Nat × Nat)
  csummed : Nat
  blkIdx : Nat
  bufpos : Nat

/-- The `while (csummed + blocksize < bytes)` middle loop of
`nova_update_cow_csum`; `fuel` bounds the iteration count (the callers pass
`bytes`, which suffices since each iteration consumes `bs ≥ 1` bytes). -/
def cowCsumMid (bs bytes : Nat) (wrbuf : List Nat) : Nat → CsumSt → CsumSt
  | 0, st => st
  | fuel + 1, st =>
    if st.csummed + bs < bytes then
      let csum := nova_calc_data_csum NOVA_INIT_CSUM ((wrbuf.drop st.bufpos).take bs)
      cowCsumMid bs bytes wrbuf fuel
        { stored := st.stored ++ [(st.blkIdx, csum)], csummed := st.csummed + bs,
          blkIdx := st.blkIdx + 1, bufpos := st.bufpos + bs }
    else st

/-- The `if (offset)` partial-head-block stage of `nova_update_cow_csum`:
chain the checksum over the old bytes before the write, the written bytes,
and (when the write ends inside the block) the old bytes after the write. -/
def cowCsumHead (bs : Nat) (blocks : List (List Nat)) (wrbuf : List Nat)
    (offset bytes : Nat) : CsumSt :=
  if offset ≠ 0 then
    let blk0 := blocks.getD 0 []
    let csummed := min (bs - offset) bytes
    let c1 := nova_calc_data_csum NOVA_INIT_CSUM (blk0.take offset)
    let c2 := nova_calc_data_csum c1 (wrbuf.take csummed)
    let c3 := if offset + csummed < bs then
        nova_calc_data_csum c2 ((blk0.drop (offset + csummed)).take (bs - offset - csummed))
      else c2
    { stored := [(0, c3)], csummed := csummed, blkIdx := 1, bufpos := csummed }
  else { stored := [], csummed := 0, blkIdx := 0, bufpos := 0 }

/-- The trailing `if (csummed < bytes)` partial-tail-block stage of
`nova_update_cow_csum`. -/
def cowCsumTail (bs : Nat) (blocks : List (List Nat)) (wrbuf : List Nat)
    (bytes : Nat) (st : CsumSt) : List (Nat × Nat) × Nat :=
  if st.csummed < bytes then
    let rem := bytes - st.csummed
    let blkT := blocks.getD st.blkIdx []
    let t1 := nova_calc_data_csum NOVA_INIT_CSUM ((wrbuf.drop st.bufpos).take rem)
    let t2 := nova_calc_data_csum t1 ((blkT.drop rem).take (bs - rem))
    (st.stored ++ [(st.blkIdx, t2)], bytes - bytes)
  else (st.stored, bytes - st.csummed)

/-- dax.c `nova_update_cow_csum`: head stage, then (when bytes remain) the
whole-middle-block loop followed by the tail stage.  Returns the list of
(relative block index, stored checksum) pairs written to the checksum area
and the C return value `bytes - csummed`. -/
def nova_update_cow_csum (bs : Nat) (blocks : List (List Nat)) (wrbuf : List Nat)
    (offset bytes : Nat) : List (Nat × Nat) × Nat :=
  let st0 := cowCsumHead bs blocks wrbuf offset bytes
  if st0.csummed < bytes then
    cowCsumTail bs blocks wrbuf bytes (cowCsumMid bs bytes wrbuf bytes st0)
  else (st0.stored, bytes - st0.csummed)

/-- checksum.c `nova_crc32c` (not among the analysed sources).  Modelled from
the spec: `compute_checksum` is CRC32C over the buffer's bytes; here applied
to the byte view of a stripe given as 64-bit words. -/
def nova_crc32c (init : Nat) (words : List Nat) : Nat :=
  crc32c init (words.flatMap (leBytes 8))

/-- parity.c `nova_update_block_parity`.  `allocOk` models the `kmalloc`
outcome, `block` is `none` for a NULL block pointer, `zero` is the zero-fill
fast path.  Result: the C return value — the function ends in a literal
`return 0`, discarding the internal `ret` (-ENOMEM / -EINVAL) — paired with
the parity stripe written to `nova_get_parity_addr` (`none` when an early
`goto out` skipped the write). -/
def nova_update_block_parity (strpWords : Nat) (allocOk : Bool)
    (block : Option (List (List Nat))) (zero : Bool) : Int × Option (List Nat) :=
  if !allocOk then (0, none)
  else
    match block with
    | none => (0, none)
    | some stripes =>
      if zero then (0, some (List.replicate strpWords 0))
      else (0, some (nova_calculate_block_parity stripes))

/-- parity.c `nova_restore_data`: rebuild one bad stripe of a block from the
surviving stripes plus the stored parity stripe, accept the candidate only if
its CRC matches one of the two stored checksum copies, and overwrite the bad
stripe in place on success.  `block` is the NVMM block as a list of stripes
(64-bit words), `parity` the stored parity stripe (`none` models a NULL
parity address), `csum0`/`csum1` the two stored checksum copies for the bad
stripe, `allocOk` the two `kmalloc`s, `readErr` a media error from
`memcpy_from_pmem`.  Returns the C return value and the (possibly updated)
block. -/
def nova_restore_data (block : List (List Nat)) (badStrpId : Nat)
    (parity : Option (List Nat)) (csum0 csum1 : Nat)
    (allocOk : Bool) (readErr : Option Int) : Int × List (List Nat) :=
  if !allocOk then (-enomem, block)
  else
    match parity with
    | none => (-eio, block)
    | some par =>
      match readErr with
      | some e => (e, block)
      | none =>
        let blockbuf := block.set badStrpId par
        let stripe := nova_calculate_block_parity blockbuf
        let csum_calc := nova_crc32c NOVA_INIT_CSUM stripe
        if csum_calc = csum0 ∨ csum_calc = csum1 then
          (0, block.set badStrpId stripe)
        else (-eio, block)

/-! ## Unrolled-by-8 checksum/parity update (parity.c
`nova_update_block_csum_parity`) -/

/-- The unrolled-by-8 loop body of `nova_update_block_csum_parity`: one
iteration per 64-bit word position reads `qwd[k]` from each of the 8 stripes
(the loop's strided `block + k * strp_size` reads, with `block += 8` per
iteration), folds each into its per-stripe CRC accumulator, and emits the
XOR chain `qwd[0] ^ ... ^ qwd[7]` as the next parity word. -/
def unrolledCsumParity : Nat → List Nat → List (List Nat) → List Nat × List Nat
  | 0, accs, _ => (accs, [])
  | i + 1, accs, stripes =>
    let qwd := stripes.map (fun s => s.headI)
    let accs2 := List.zipWith (fun a q => nova_crc32c_qword q a) accs qwd
    let parityWord := match qwd with
      | [] => 0
      | q :: rest => rest.foldl Nat.xor q
    let res := unrolledCsumParity i accs2 (stripes.map List.tail)
    (res.1, parityWord :: res.2)

/-- checksum.c `nova_update_block_csum` (not among the analysed sources).
Modelled from the spec: the generic stripe-loop checksum update stores, for
each stripe of the block, the CRC32C over that stripe's contents. -/
def nova_update_block_csum (stripes : List (List Nat)) : List Nat :=
  stripes.map (fun s => nova_crc32c NOVA_INIT_CSUM s)

/-- parity.c `nova_update_block_csum_parity`.  `stripes` is the block as a
list of stripes of 64-bit words; `beyond` is the stripe-sized region that
follows the block in memory (read by the generic checksum fallback when the
unrolled branch has already advanced the block pointer by one stripe);
`sse42` models `static_cpu_has(X86_FEATURE_XMM4_2)`; `allocOk` the parity
buffer `kmalloc`.  Returns the C return value (a literal `return 0`,
discarding the internal -ENOMEM), the per-stripe checksums written to the
two `nova_get_data_csum_addr` copies (`none` if not written), and the parity
stripe written to `nova_get_parity_addr` (`none` if not written; when
`dataParity` is false the unrolled branch would copy from a NULL parity
buffer, which we do not model further). -/
def nova_update_block_csum_parity (bs strpSize offset bytes : Nat)
    (sse42 dataCsum dataParity allocOk : Bool)
    (stripes : List (List Nat)) (beyond : List Nat) :
    Int × Option (List Nat) × Option (List Nat) :=
  let strpOffset := offset % strpSize
  let numStrps := (strpOffset + bytes - 1) / strpSize + 1
  let unrollParity := bs / strpSize == 8 && numStrps == 8
  let unrollCsum := unrollParity && sse42
  if unrollCsum || unrollParity then
    if dataParity && !allocOk then (0, none, none)
    else
      let res := unrolledCsumParity (strpSize / 8)
        (List.replicate 8 NOVA_INIT_CSUM) stripes
      let crcs := res.1.map (fun a => a % 2 ^ 32)
      let storedCsums :=
        if dataCsum && unrollCsum then some crcs
        else if dataCsum && !unrollCsum then
          -- fallback runs with the pointer already advanced one stripe
          some (nova_update_block_csum (stripes.drop 1 ++ [beyond]))
        else none
      let storedParity := if dataParity then some res.2 else none
      (0, storedCsums, storedParity)
  else
    let storedCsums := if dataCsum then some (nova_update_block_csum stripes) else none
    let storedParity := if dataParity then
        (nova_update_block_parity (strpSize / 8) allocOk (some stripes) false).2
      else none
    (0, storedCsums, storedParity)

/-- `FILE_WRITE` log entry type tag (nova.h, value immaterial). -/
def FILE_WRITE : Nat := 1

/-- dax.c / nova.h `struct nova_file_write_entry`; `blocknr` stands for
`entry->block >> PAGE_SHIFT`. -/
structure WEntry where
  entry_type : Nat
  reassigned : Nat
  trans_id : Nat
  pgoff : Nat
  num_pages : Nat
  invalid_pages : Nat
  blocknr : Nat
  mtime : Nat
  fsize : Nat
deriving DecidableEq

/-- inode.h `get_nvmm` (not among the analysed sources).  Modelled from the
spec's block-address translation contract: the physical block backing logical
page `index` of an entry is the entry's starting physical block plus the
page's offset inside the entry. -/
def get_nvmm (e : WEntry) (index : Nat) : Nat :=
  e.blocknr + (index - e.pgoff)

/-- The bytes of physical block `b` in the byte-addressed NVMM `mem`. -/
def blockBytes (mem : Nat → Nat) (bs b : Nat) : List Nat :=
  (List.range bs).map (fun i => mem (b * bs + i))

/-- `memcpy`/`memset` into a buffer at a byte position. -/
def listWrite (dst : List Nat) (pos : Nat) (src : List Nat) : List Nat :=
  dst.take pos ++ src ++ dst.drop (pos + src.length)

/-- dax.c `nova_copy_partial_block`: copy the untouched prefix (head block)
or suffix (end block) of the old block at `index` into the new buffer
`kmem`.  The old block is resolved through the entry and is modelled as
always mapped (`nova_get_block` returns a valid pointer). -/
def nova_copy_partial_block (mem : Nat → Nat) (bs : Nat) (e : WEntry)
    (index offset : Nat) (kmem : List Nat) (is_end_blk : Bool) : List Nat :=
  let nvmm := get_nvmm e index
  let ptr := blockBytes mem bs nvmm
  if is_end_blk then listWrite kmem offset (ptr.drop offset)
  else listWrite kmem 0 (ptr.take offset)

/-- The `if (offset != 0)` head-block stage of
`nova_handle_head_tail_blocks`: zero-fill or copy the first block's prefix
`[0, offset)`. -/
def headFill (mem : Nat → Nat) (entries : Nat → Option WEntry)
    (bs pos : Nat) (kmem : List Nat) : List Nat :=
  let offset := pos % bs
  let start_blk := pos / bs
  if offset ≠ 0 then
    match entries start_blk with
    | none => listWrite kmem 0 (List.replicate offset 0)
    | some e => nova_copy_partial_block mem bs e start_blk offset kmem false
  else kmem

/-- The `if (eblk_offset != 0)` end-block stage of
`nova_handle_head_tail_blocks`: zero-fill or copy the last block's suffix
`[eblk_offset, bs)`; the C advances `kmem` by `(num_blocks - 1)` blocks
before the copy. -/
def tailFill (mem : Nat → Nat) (entries : Nat → Option WEntry)
    (bs pos count : Nat) (kmem1 : List Nat) : List Nat :=
  let offset := pos % bs
  let num_blocks := (count + offset - 1) / bs + 1
  let end_blk := pos / bs + num_blocks - 1
  let base := (num_blocks - 1) * bs
  let eblk_offset := (pos + count) % bs
  if eblk_offset ≠ 0 then
    match entries end_blk with
    | none => listWrite kmem1 (base + eblk_offset)
        (List.replicate (bs - eblk_offset) 0)
    | some e => kmem1.take base
        ++ nova_copy_partial_block mem bs e end_blk eblk_offset
             (kmem1.drop base) true
  else kmem1

/-- dax.c `nova_handle_head_tail_blocks`: fill the not-written prefix of the
first block and suffix of the last block of the freshly allocated buffer
`kmem`, copying from the currently mapped old block when one exists and
zero-filling when the logical offset is a hole.  `entries` is
`nova_get_write_entry`'s resolution of logical block index to current log
entry. -/
def nova_handle_head_tail_blocks (mem : Nat → Nat) (entries : Nat → Option WEntry)
    (bs : Nat) (pos count : Nat) (kmem : List Nat) : List Nat :=
  tailFill mem entries bs pos count (headFill mem entries bs pos kmem)

/-- dax.c `nova_verify_data_csum`: recompute the CRC of each of `blocks`
whole blocks starting at the block backing `index` in `entry` and compare
with the stored value at `nova_get_block_csum_addr`; false on the first
mismatch (`List.all` short-circuits identically). -/
def nova_verify_data_csum (mem : Nat → Nat) (storedCsum : Nat → Nat) (bs : Nat)
    (e : WEntry) (index blocks : Nat) : Bool :=
  (List.range blocks).all (fun k =>
    nova_calc_data_csum NOVA_INIT_CSUM (blockBytes mem bs (get_nvmm e index + k))
      == storedCsum (get_nvmm e index + k))

/-- One group of bytes copied to the caller's buffer by the read loop:
either synthesized zeroes for a hole, or bytes from NVMM together with the
group's starting physical block and the number of whole blocks that were
checksum-verified before the copy. -/
inductive RChunk where
  | zeros (n : Nat)
  | data (nvmm offset blks : Nat) (bytes : List Nat)
deriving DecidableEq

/-- Result of `do_dax_mapping_read`: the return value (`copied ? copied :
error`), the byte count copied, the copied chunks in order, whether the loop
exited on a checksum mismatch, and whether the fuel ran out (never the case
for fuel = len, recorded for honesty). -/
structure ReadOut where
  ret : Int
  copied : Nat
  chunks : List RChunk
  mismatch : Bool
  fuelOut : Bool
deriving DecidableEq

/-- The `do { ... } while (copied < len)` loop of `do_dax_mapping_read`. -/
def readLoop (mem : Nat → Nat) (entries : Nat → Option WEntry)
    (storedCsum : Nat → Nat) (csumEnabled : Bool) (bs isize len : Nat) :
    Nat → Nat → Nat → Nat → List RChunk → ReadOut
  | 0, _, _, copied, acc =>
    { ret := if 0 < copied then (copied : Int) else 0, copied := copied,
      chunks := acc, mismatch := false, fuelOut := true }
  | fuel + 1, index, offset, copied, acc =>
    let end_index := (isize - 1) / bs
    if end_index < index then
      { ret := if 0 < copied then (copied : Int) else 0, copied := copied,
        chunks := acc, mismatch := false, fuelOut := false }
    else if index = end_index ∧ (isize - 1) % bs + 1 ≤ offset then
      { ret := if 0 < copied then (copied : Int) else 0, copied := copied,
        chunks := acc, mismatch := false, fuelOut := false }
    else
      match entries index with
      | none =>
        -- hole: nr = PAGE_SIZE, synthesize zero bytes, no checksum check
        let nr := min (bs - offset) (len - copied)
        let copied2 := copied + nr
        let acc2 := acc ++ [RChunk.zeros nr]
        if copied2 < len then
          readLoop mem entries storedCsum csumEnabled bs isize len fuel
            (index + (offset + nr) / bs) ((offset + nr) % bs) copied2 acc2
        else
          { ret := if 0 < copied2 then (copied2 : Int) else 0, copied := copied2,
            chunks := acc2, mismatch := false, fuelOut := false }
      | some e =>
        if index < e.pgoff ∨ e.num_pages ≤ index - e.pgoff then
          -- corrupted log entry: immediate return -EINVAL
          { ret := -einval, copied := copied, chunks := acc, mismatch := false,
            fuelOut := false }
        else
          let nr0 := if e.reassigned = 0 then (e.num_pages - (index - e.pgoff)) * bs
            else bs
          let nvmm := get_nvmm e index
          let nr := min (nr0 - offset) (len - copied)
          let csum_blks := (offset + nr - 1) / bs + 1
          if csumEnabled &&
              !(nova_verify_data_csum mem storedCsum bs e index csum_blks) then
            -- checksum failure: error = -EIO, goto out; returns copied if > 0
            { ret := if 0 < copied then (copied : Int) else -eio, copied := copied,
              chunks := acc, mismatch := true, fuelOut := false }
          else
            let chunk := RChunk.data nvmm offset csum_blks
              ((List.range nr).map (fun j => mem (nvmm * bs + offset + j)))
            let copied2 := copied + nr
            let acc2 := acc ++ [chunk]
            if copied2 < len then
              readLoop mem entries storedCsum csumEnabled bs isize len fuel
                (index + (offset + nr) / bs) ((offset + nr) % bs) copied2 acc2
            else
              { ret := if 0 < copied2 then (copied2 : Int) else 0,
                copied := copied2, chunks := acc2, mismatch := false,
                fuelOut := false }

/-- dax.c `do_dax_mapping_read`: cap `len` at the file size, then run the
copy loop from `pos` (fuel `len` always suffices, each iteration copies at
least one byte). -/
def do_dax_mapping_read (mem : Nat → Nat) (entries : Nat → Option WEntry)
    (storedCsum : Nat → Nat) (csumEnabled : Bool) (bs isize pos len : Nat) :
    ReadOut :=
  if isize = 0 then
    { ret := 0, copied := 0, chunks := [], mismatch := false, fuelOut := false }
  else
    let len2 := if isize - pos < len then isize - pos else len
    if len2 = 0 then
      { ret := 0, copied := 0, chunks := [], mismatch := false, fuelOut := false }
    else
      readLoop mem entries storedCsum csumEnabled bs isize len2 len2
        (pos / bs) (pos % bs) 0 []

/-- A chunk whose bytes reached the caller passed its checksum gate: zero
chunks trivially, data chunks only if all their verified blocks match. -/
def chunkOK (mem : Nat → Nat) (storedCsum : Nat → Nat) (bs : Nat) :
    RChunk → Prop
  | RChunk.zeros _ => True
  | RChunk.data nvmm _ blks _ => ∀ k, k < blks →
      nova_calc_data_csum NOVA_INIT_CSUM (blockBytes mem bs (nvmm + k))
        = storedCsum (nvmm + k)

/-- Inputs refuting claim C3 as stated: byte-addressed NVMM, two one-page
write entries, the second one's stored checksum corrupt. -/
def cexMem : Nat → Nat := fun a => a % 256

def cexEntries : Nat → Option WEntry := fun i =>
  if i = 0 then some ⟨1, 0, 0, 0, 1, 0, 10, 0, 8⟩
  else if i = 1 then some ⟨1, 0, 0, 1, 1, 0, 20, 0, 8⟩
  else none

def cexCsum : Nat → Nat := fun b =>
  if b = 10 then nova_calc_data_csum NOVA_INIT_CSUM (blockBytes cexMem 4 10)
  else 0

/-- journal.c / nova.h `struct nova_lite_journal_entry`.  The struct lives in
nova.h (not among the analysed sources); modelled from the spec and from
journal.c itself: the checksum covers `sizeof(entry) - sizeof(__le32)` bytes
and one 4096-byte page holds 128 entries, so the record is 32 bytes — 8-byte
type, 4-byte padding, two 8-byte data slots, 4-byte checksum. -/
structure JEntry where
  jtype : Nat
  padding : Nat
  data1 : Nat
  data2 : Nat
  csum : Nat
deriving DecidableEq

def JOURNAL_INODE : Nat := 1

def JOURNAL_ENTRY : Nat := 2

/-- The bytes of a journal entry covered by its checksum (everything but the
trailing 4-byte checksum itself). -/
def jentryBytes (e : JEntry) : List Nat :=
  leBytes 8 e.jtype ++ leBytes 4 e.padding ++ leBytes 8 e.data1 ++ leBytes 8 e.data2

/-- journal.c `nova_update_entry_checksum`: `crc32c(~0, entry, size - 4)`. -/
def nova_update_entry_checksum (e : JEntry) : JEntry :=
  { e with csum := crc32c 0xFFFFFFFF (jentryBytes e) }

/-- journal.c `nova_check_entry_integrity` (true = checksum matches). -/
def nova_check_entry_integrity (e : JEntry) : Bool :=
  e.csum == crc32c 0xFFFFFFFF (jentryBytes e)

/-- journal.c `next_lite_journal`: advance by one 32-byte entry, wrapping to
the start of the (single) journal page when the next entry would cross the
page boundary. -/
def next_lite_journal (curr : Nat) : Nat :=
  if 4096 ≤ curr % 4096 + 32 then curr - curr % 4096 else curr + 32

/-- The address sequence visited by the journal walks (`temp = head; while
(temp != tail) temp = next_lite_journal(temp)`), shared by
`nova_check_journal_entries` and `nova_recover_lite_journal`; `none` when
`fuel` iterations do not reach `tail`. -/
def journalAddrs : Nat → Nat → Nat → Option (List Nat)
  | 0, head, tail => if head = tail then some [] else none
  | fuel + 1, head, tail =>
    if head = tail then some []
    else (journalAddrs fuel (next_lite_journal head) tail).map (head :: ·)

/-- journal.c `nova_check_journal_entries`: every entry between head and
tail passes its checksum (the C breaks at the first failure; `all`
short-circuits identically). -/
def nova_check_journal_entries (journal : Nat → JEntry) (addrs : List Nat) : Bool :=
  addrs.all (fun a => nova_check_entry_integrity (journal a))

/-- `memcpy` over the byte-addressed PM image. -/
def pmCopy (pm : Nat → Nat) (dst src n : Nat) : Nat → Nat :=
  fun a => if dst ≤ a ∧ a < dst + n then pm (src + (a - dst)) else pm a

/-- A little-endian 64-bit store over the byte-addressed PM image. -/
def pmWriteLE (pm : Nat → Nat) (addr v n : Nat) : Nat → Nat :=
  fun a => if addr ≤ a ∧ a < addr + n then v / 256 ^ (a - addr) % 256 else pm a

/-- journal.c `nova_undo_lite_journal_entry`: a JOURNAL_INODE entry restores
the inode's primary copy from its replica (`nova_recover_journal_inode`, a
no-op when `replica_inode` is off); a JOURNAL_ENTRY entry writes the saved
64-bit value back to the saved address (`nova_recover_journal_entry`);
unknown types are ignored. -/
def nova_undo_lite_journal_entry (replica : Bool) (inodeSize : Nat)
    (pm : Nat → Nat) (e : JEntry) : Nat → Nat :=
  if e.jtype = JOURNAL_INODE then
    if replica then pmCopy pm e.data1 e.data2 inodeSize else pm
  else if e.jtype = JOURNAL_ENTRY then
    pmWriteLE pm e.data1 e.data2 8
  else pm

structure PtrPair where
  journal_head : Nat
  journal_tail : Nat
deriving DecidableEq

/-- journal.c `nova_recover_lite_journal`: undo-replay every entry from head
to tail in walk order (`addrs`), then set `journal_tail = journal_head` and
flush the pair.  Returns the new pointer pair, the new PM image, and the
replayed addresses in order. -/
def nova_recover_lite_journal (replica : Bool) (inodeSize : Nat)
    (journal : Nat → JEntry) (pm : Nat → Nat) (pair : PtrPair)
    (addrs : List Nat) : PtrPair × (Nat → Nat) × List Nat :=
  ({ journal_head := pair.journal_head, journal_tail := pair.journal_head },
   addrs.foldl
     (fun p a => nova_undo_lite_journal_entry replica inodeSize p (journal a)) pm,
   addrs)

/-- Result of `nova_lite_journal_soft_init`: the return value, the per-CPU
pointer pairs, the PM image, and the `(cpu, replayed addresses)` trace in
processing order. -/
structure SoftInitOut where
  ret : Int
  pairs : Nat → PtrPair
  pm : Nat → Nat
  replayed : List (Nat × List Nat)

/-- The per-CPU loop of journal.c `nova_lite_journal_soft_init`: skip CPUs
with an empty journal, verify every entry's checksum in [head, tail) before
any undo, break with -EINVAL on the first checksum failure, otherwise
recover and continue.  `none` models insufficient walk fuel (never the case
for fuel ≥ the entry count). -/
def softInitGo (fuel : Nat) (replica : Bool) (inodeSize : Nat)
    (journal : Nat → JEntry) :
    List Nat → (Nat → PtrPair) → (Nat → Nat) → Int → List (Nat × List Nat) →
    Option SoftInitOut
  | [], pairs, pm, ret, tr => some ⟨ret, pairs, pm, tr⟩
  | i :: rest, pairs, pm, ret, tr =>
    let pair := pairs i
    if pair.journal_head = pair.journal_tail then
      softInitGo fuel replica inodeSize journal rest pairs pm ret tr
    else
      match journalAddrs fuel pair.journal_head pair.journal_tail with
      | none => none
      | some addrs =>
        if nova_check_journal_entries journal addrs then
          let res := nova_recover_lite_journal replica inodeSize journal pm pair addrs
          softInitGo fuel replica inodeSize journal rest
            (fun j => if j = i then res.1 else pairs j) res.2.1 0 (tr ++ [(i, addrs)])
        else some ⟨-einval, pairs, pm, tr⟩

/-- journal.c `nova_lite_journal_soft_init` (the C's `ret` starts
uninitialized; it is only returned on paths that assigned it, we model the
all-journals-empty path as returning 0). -/
def nova_lite_journal_soft_init (cpus fuel : Nat) (replica : Bool)
    (inodeSize : Nat) (journal : Nat → JEntry) (pairs0 : Nat → PtrPair)
    (pm0 : Nat → Nat) : Option SoftInitOut :=
  softInitGo fuel replica inodeSize journal (List.range cpus) pairs0 pm0 0 []

/-- Concrete one-CPU journal used by the C4 witness: a single correctly
checksummed JOURNAL_ENTRY record at page offset 0 writing value 77 back to
address 800. -/
def jrnEntryGood : JEntry := nova_update_entry_checksum ⟨2, 0, 800, 77, 0⟩

def jrnJournal : Nat → JEntry := fun a =>
  if a = 4096 then jrnEntryGood else ⟨0, 0, 0, 0, 0⟩

def jrnPairs : Nat → PtrPair := fun _ => ⟨4096, 4128⟩

def jrnOut : SoftInitOut :=
  ⟨0, fun j => if j = 0 then ⟨4096, 4096⟩ else jrnPairs j,
   pmWriteLE (fun _ => 0) 800 77 8, [(0, [4096])]⟩

/-- journal.c `nova_append_inode_journal`: write a checksummed JOURNAL_INODE
before-image entry at `curr_p` (data1 = the inode's pi address; data2 = its
replica address only when replica inodes are enabled, otherwise the slot's
previous data2 survives), then advance to the next journal slot.  Returns
the next slot address and the updated journal. -/
def nova_append_inode_journal (replica : Bool) (curr_p pi_addr alter_pi_addr : Nat)
    (jr : Nat → JEntry) : Nat × (Nat → JEntry) :=
  let e := nova_update_entry_checksum
    ⟨JOURNAL_INODE, 0, pi_addr,
     if replica then alter_pi_addr else (jr curr_p).data2, 0⟩
  (next_lite_journal curr_p, fun a => if a = curr_p then e else jr a)

/-- journal.c `nova_append_entry_journal`: write a checksummed JOURNAL_ENTRY
before-image entry (field address, current field value) at `curr_p`, then
advance to the next journal slot. -/
def nova_append_entry_journal (curr_p addr value : Nat) (jr : Nat → JEntry) :
    Nat × (Nat → JEntry) :=
  let e := nova_update_entry_checksum ⟨JOURNAL_ENTRY, 0, addr, value, 0⟩
  (next_lite_journal curr_p, fun a => if a = curr_p then e else jr a)

/-- journal.c `nova_create_inode_transaction`: `none` models `BUG()` (NULL
pair, zero head, or head ≠ tail, i.e. an uncommitted transaction); otherwise
append one before-image entry per inode starting at the head, set
`journal_tail` to the advanced position and return it, leaving
`journal_head` where it was. -/
def nova_create_inode_transaction (replica : Bool) (pair : Option PtrPair)
    (jr : Nat → JEntry) (pi1 alt1 pi2 alt2 : Nat) :
    Option (Nat × (Nat → JEntry) × PtrPair) :=
  match pair with
  | none => none
  | some p =>
    if p.journal_head = 0 ∨ p.journal_head ≠ p.journal_tail then none
    else
      let s1 := nova_append_inode_journal replica p.journal_head pi1 alt1 jr
      let s2 := nova_append_inode_journal replica s1.1 pi2 alt2 s1.2
      some (s2.1, s2.2, ⟨p.journal_head, s2.1⟩)

/-- journal.c `nova_create_rename_transaction`: same BUG guard; appends
before-image entries for old_inode and old_dir, then for new_inode, new_dir
and father_ino when present, publishes the tail and returns it. -/
def nova_create_rename_transaction (replica : Bool) (pair : Option PtrPair)
    (jr : Nat → JEntry) (oldInode oldDir : Nat × Nat)
    (newInode newDir : Option (Nat × Nat)) (father : Option (Nat × Nat)) :
    Option (Nat × (Nat → JEntry) × PtrPair) :=
  match pair with
  | none => none
  | some p =>
    if p.journal_head = 0 ∨ p.journal_head ≠ p.journal_tail then none
    else
      let s1 := nova_append_inode_journal replica p.journal_head oldInode.1
        oldInode.2 jr
      let s2 := nova_append_inode_journal replica s1.1 oldDir.1 oldDir.2 s1.2
      let s3 := match newInode with
        | none => s2
        | some ni => nova_append_inode_journal replica s2.1 ni.1 ni.2 s2.2
      let s4 := match newDir with
        | none => s3
        | some nd => nova_append_inode_journal replica s3.1 nd.1 nd.2 s3.2
      let s5 := match father with
        | none => s4
        | some f => nova_append_entry_journal s4.1 f.1 f.2 s4.2
      some (s5.1, s5.2, ⟨p.journal_head, s5.1⟩)

/-- One 64-byte slot of the per-inode log
(`sizeof(struct nova_file_write_entry)`). -/
def wentrySize : Nat := 64

/-- dax.c `nova_cleanup_incomplete_write`, inner walk: from `curr` to
`end_tail` over the linear log (log-page chaining lives outside the
analysed sources), freeing the extent of every FILE_WRITE entry and
skipping others; `-EINVAL` on a NULL position, `none` when `fuel` runs out
before reaching `end_tail`.  Returns the status and the freed
(blocknr, count) extents in walk order. -/
def cleanupWalk (log : Nat → WEntry) :
    Nat → Nat → Nat → Option (Int × List (Nat × Nat))
  | 0, curr, e => if curr = e then some (0, []) else none
  | fuel + 1, curr, e =>
    if curr = e then some (0, [])
    else if curr = 0 then some (-einval, [])
    else if (log curr).entry_type ≠ FILE_WRITE then
      cleanupWalk log fuel (curr + wentrySize) e
    else
      match cleanupWalk log fuel (curr + wentrySize) e with
      | none => none
      | some (r, fr) =>
        some (r, ((log curr).blocknr, (log curr).num_pages) :: fr)

/-- dax.c `nova_cleanup_incomplete_write`: free the failing iteration's
direct allocation when both `blocknr` and `allocated` are positive, then —
unless either tail marker is zero — walk the unpublished log region
[begin_tail, end_tail) freeing the extent referenced by every appended
write entry.  Returns the status and the full list of freed extents. -/
def nova_cleanup_incomplete_write (log : Nat → WEntry)
    (blocknr allocated begin_tail end_tail fuel : Nat) :
    Option (Int × List (Nat × Nat)) :=
  let direct : List (Nat × Nat) :=
    if 0 < blocknr ∧ 0 < allocated then [(blocknr, allocated)] else []
  if begin_tail = 0 ∨ end_tail = 0 then some (0, direct)
  else match cleanupWalk log fuel begin_tail end_tail with
    | none => none
    | some (r, fr) => some (r, direct ++ fr)

/-- Oracle for one iteration of the COW write loop: either
`nova_new_data_blocks` fails returning `-err` (0 allowed: the code treats a
zero return as failure with `ret = 0`), or it allocates `allocated` blocks
at `blocknr`, `memcpy_to_pmem_nocache` leaves `uncopied` user bytes
uncopied, and `nova_append_file_write_entry` succeeds iff `appendOk`. -/
inductive CowStep where
  | allocFail (err : Nat)
  | ok (blocknr allocated uncopied : Nat) (appendOk : Bool)
deriving DecidableEq

/-- How the allocation/copy/append loop of `nova_cow_file_write` was left:
ran to completion (`num_blocks = 0`), broke out with `status < 0` after a
short user copy, or jumped to the `out` label with return value `ret`. -/
inductive CowExit where
  | done
  | brk
  | fail (ret : Int)
deriving DecidableEq

/-- The mutable locals of `nova_cow_file_write` threaded through the loop,
plus the per-inode log image and the list of appended entries
(address, blocknr, num_pages). -/
structure CowSt where
  pos : Nat
  count : Nat
  num_blocks : Nat
  temp_tail : Nat
  begin_tail : Nat
  written : Nat
  blocknr : Nat
  allocated : Nat
  appended : List (Nat × Nat × Nat)
  log : Nat → WEntry

/-- dax.c `nova_cow_file_write`, the `while (num_blocks > 0)` loop
(lines 415-507): allocate, fill head/tail, copy from the user buffer,
append a write entry at `temp_tail`, and on success record `begin_tail`
(first appended entry) and advance `temp_tail`; a failed allocation or
append jumps to `out` with the error, and a short copy sets
`status = -EFAULT` and breaks BEFORE the `begin_tail`/`temp_tail` update,
so the failing iteration's entry stays outside the published region. -/
def cowLoop (bs trans_id time isize : Nat) :
    List CowStep → CowSt → Option (CowExit × CowSt)
  | steps, st =>
    if st.num_blocks = 0 then some (CowExit.done, st)
    else
      match steps with
      | [] => none
      | stp :: rest =>
        let offset := st.pos % bs
        match stp with
        | CowStep.allocFail err =>
          some (CowExit.fail (-(err : Int)), { st with allocated := 0 })
        | CowStep.ok bnr alloc uncopied appendOk =>
          if alloc = 0 then
            some (CowExit.fail 0, { st with blocknr := bnr, allocated := 0 })
          else
            let bytes := min (bs * alloc - offset) st.count
            let copied := bytes - uncopied
            if appendOk = false then
              some (CowExit.fail (-enospc),
                { st with blocknr := bnr, allocated := alloc })
            else
              let curr_entry := st.temp_tail
              let e : WEntry := ⟨FILE_WRITE, 0, trans_id, st.pos / bs, alloc,
                0, bnr, time, max (st.pos + copied) isize⟩
              let log2 := fun a => if a = curr_entry then e else st.log a
              let app2 := st.appended ++ [(curr_entry, bnr, alloc)]
              let st1 := if 0 < copied then
                  { st with
                    pos := st.pos + copied,
                    count := st.count - copied,
                    num_blocks := st.num_blocks - alloc,
                    written := st.written + copied }
                else st
              if copied ≠ bytes then
                some (CowExit.brk,
                  { st1 with
                    blocknr := bnr,
                    allocated := alloc,
                    log := log2,
                    appended := app2 })
              else
                cowLoop bs trans_id time isize rest
                  { st1 with
                    blocknr := bnr,
                    allocated := alloc,
                    log := log2,
                    appended := app2,
                    begin_tail := if st.begin_tail = 0 then curr_entry
                      else st.begin_tail,
                    temp_tail := curr_entry + wentrySize }

/-- Observable outcome of `nova_cow_file_write`: return value, bytes
written, every value passed to `nova_update_tail` in order, the appended
entries, the extents freed by `nova_cleanup_incomplete_write` (empty when
it never ran), whether it ran, how the loop exited, and the final
`blocknr`/`allocated`/`begin_tail`/`temp_tail` locals. -/
structure CowOut where
  ret : Int
  written : Nat
  pubTails : List Nat
  appended : List (Nat × Nat × Nat)
  freed : List (Nat × Nat)
  cleanupRan : Bool
  exit : CowExit
  blocknr : Nat
  allocated : Nat
  begin_tail : Nat
  temp_tail : Nat
deriving DecidableEq

/-- A store into the C local `ret`, which dax.c:352 declares as `size_t`:
assigning a (possibly negative) signed value wraps it into the 64-bit
unsigned range. -/
def sizetOfInt (i : Int) : Nat := (i % (2 : Int) ^ 64).toNat

/-- The implicit conversion at `return ret` (dax.c:545): the `size_t` bit
pattern of `ret` read back as the function's `ssize_t` return value. -/
def ssizeOfSizet (n : Nat) : Int :=
  if 2 ^ 63 ≤ n then (n : Int) - 2 ^ 64 else (n : Int)

/-- dax.c `nova_reassign_file_tree` (lines 263-296): walk from `begin_tail`
to `pi->log_tail` over the linear log, reassigning every FILE_WRITE entry
into the DRAM tree (the reassignment mutates only in-memory state, outside
these observables) and skipping others, both advancing one 64-byte slot; a
NULL position returns -EINVAL; `none` when `fuel` runs out first. -/
def nova_reassign_file_tree (log : Nat → WEntry) :
    Nat → Nat → Nat → Option Int
  | 0, curr, e => if curr = e then some 0 else none
  | fuel + 1, curr, e =>
    if curr = e then some 0
    else if curr = 0 then some (-einval)
    else nova_reassign_file_tree log fuel (curr + wentrySize) e

/-- dax.c lines 535-545, the `out:` label of `nova_cow_file_write`: because
`ret` is the unsigned `size_t` local, the guard `if (ret < 0)` is an
always-false unsigned comparison, modelled literally as `ret < 0` on `Nat`;
the `nova_cleanup_incomplete_write` call sits under it exactly as in the
source.  Returns the observable outcome, with `ret` converted to `ssize_t`
at the final `return`. -/
def cowOutBlock (log : Nat → WEntry) (ret : Nat)
    (written blocknr allocated begin_tail end_tail : Nat)
    (pubTails : List Nat) (appended : List (Nat × Nat × Nat))
    (ex : CowExit) : Option CowOut :=
  if ret < 0 then
    match nova_cleanup_incomplete_write log blocknr allocated begin_tail
        end_tail ((end_tail - begin_tail) / wentrySize + 1) with
    | none => none
    | some (_, fr) =>
      some ⟨ssizeOfSizet ret, written, pubTails, appended, fr, true, ex,
        blocknr, allocated, begin_tail, end_tail⟩
  else
    some ⟨ssizeOfSizet ret, written, pubTails, appended, [], false, ex,
      blocknr, allocated, begin_tail, end_tail⟩

/-- dax.c `nova_cow_file_write` (lines 340-546): zero-length writes return
0; a mapped file returns -EACCES before the `out` label; a failed
`access_ok` goes to `out` with `ret = (size_t)-EFAULT`.  Otherwise the
loop runs from `temp_tail = pi->log_tail` (`origTail`); the `goto out`
paths jump to the `out` block with the error stored into the unsigned
`ret` and no tail update, while loop completion AND the short-copy break
both fall through to the single `nova_update_tail(pi, temp_tail)`
followed by `ret = nova_reassign_file_tree(sb, pi, sih, begin_tail)` —
nonzero sends control to `out` with that status — and otherwise
`ret = written`; every path then runs the `out` block (`cowOutBlock`),
whose cleanup guard can never fire. -/
def nova_cow_file_write (bs trans_id time isize : Nat)
    (mapped accessOk : Bool) (steps : List CowStep)
    (len pos0 origTail : Nat) (log : Nat → WEntry) : Option CowOut :=
  if len = 0 then some ⟨0, 0, [], [], [], false, CowExit.done, 0, 0, 0, 0⟩
  else if mapped then
    some ⟨-eacces, 0, [], [], [], false, CowExit.done, 0, 0, 0, 0⟩
  else if accessOk = false then
    cowOutBlock log (sizetOfInt (-efault)) 0 0 0 0 0 [] [] CowExit.done
  else
    let offset0 := pos0 % bs
    let num_blocks := (len + offset0 - 1) / bs + 1
    match cowLoop bs trans_id time isize steps
        ⟨pos0, len, num_blocks, origTail, 0, 0, 0, 0, [], log⟩ with
    | none => none
    | some (ex, st) =>
      match ex with
      | CowExit.fail r =>
        cowOutBlock st.log (sizetOfInt r) st.written st.blocknr st.allocated
          st.begin_tail st.temp_tail [] st.appended ex
      | _ =>
        match nova_reassign_file_tree st.log
            ((st.temp_tail - st.begin_tail) / wentrySize + 1)
            st.begin_tail st.temp_tail with
        | none => none
        | some rr =>
          if rr = 0 then
            cowOutBlock st.log (sizetOfInt (st.written : Int)) st.written
              st.blocknr st.allocated st.begin_tail st.temp_tail
              [st.temp_tail] st.appended ex
          else
            cowOutBlock st.log (sizetOfInt rr) st.written st.blocknr
              st.allocated st.begin_tail st.temp_tail [st.temp_tail]
              st.appended ex

/-- Invariant tying the appended-entry list to the log image: the k-th
appended entry sits `k` slots past `origTail` and the log there holds a
FILE_WRITE entry with its block number and page count. -/
def cowInv (origTail : Nat) (A : List (Nat × Nat × Nat))
    (log : Nat → WEntry) : Prop :=
  ∀ k, (hk : k < A.length) →
    (A.get ⟨k, hk⟩).1 = origTail + wentrySize * k ∧
    (log (origTail + wentrySize * k)).entry_type = FILE_WRITE ∧
    (log (origTail + wentrySize * k)).blocknr = (A.get ⟨k, hk⟩).2.1 ∧
    (log (origTail + wentrySize * k)).num_pages = (A.get ⟨k, hk⟩).2.2

/-- Concrete outcome for the C1 witness run: first iteration writes 4 bytes
to block 10, second iteration's allocation fails with -ENOSPC; the error
reaches the caller only through the size_t round-trip, the tail is never
published, and — the bug — nothing is freed: the dead `ret < 0` guard
skips the cleanup pass, leaking block 10 and its unpublished entry. -/
def cowWitOut : CowOut :=
  ⟨-28, 4, [], [(1000, 10, 1)], [], false, CowExit.fail (-28), 10, 0,
   1000, 1064⟩

theorem crc32c_append (c : Nat) (a b : List Nat) :
    crc32c c (a ++ b) = crc32c (crc32c c a) b :=
  List.foldl_append ..

theorem crc32cRound_lt (c : Nat) (h : c < 2 ^ 32) : crc32cRound c < 2 ^ 32 := by
  unfold crc32cRound
  have h2 : c / 2 < 2 ^ 32 := lt_of_le_of_lt (Nat.div_le_self c 2) h
  split
  · exact Nat.xor_lt_two_pow h2 (by norm_num)
  · exact h2

theorem crc32cByte_lt (c b : Nat) (h : c < 2 ^ 32) : crc32cByte c b < 2 ^ 32 := by
  unfold crc32cByte
  have h0 : c ^^^ b % 256 < 2 ^ 32 :=
    Nat.xor_lt_two_pow h (lt_trans (Nat.mod_lt b (by norm_num)) (by norm_num))
  exact crc32cRound_lt _ (crc32cRound_lt _ (crc32cRound_lt _ (crc32cRound_lt _
    (crc32cRound_lt _ (crc32cRound_lt _ (crc32cRound_lt _ (crc32cRound_lt _ h0)))))))

theorem crc32c_lt (c : Nat) (buf : List Nat) (h : c < 2 ^ 32) :
    crc32c c buf < 2 ^ 32 := by
  induction buf generalizing c with
  | nil => exact h
  | cons x xs ih => exact ih _ (crc32cByte_lt c x h)

theorem zipXor_assoc (a b c : List Nat) :
    zipXor (zipXor a b) c = zipXor a (zipXor b c) := by
  induction a generalizing b c with
  | nil => simp [zipXor]
  | cons x xs ih =>
    cases b with
    | nil => simp [zipXor]
    | cons y ys =>
      cases c with
      | nil => simp [zipXor]
      | cons z zs =>
        simp only [zipXor, List.zipWith_cons_cons, List.cons.injEq]
        exact ⟨Nat.xor_assoc x y z, ih ys zs⟩

theorem zipXor_comm (a b : List Nat) : zipXor a b = zipXor b a := by
  induction a generalizing b with
  | nil => cases b <;> simp [zipXor]
  | cons x xs ih =>
    cases b with
    | nil => simp [zipXor]
    | cons y ys =>
      simp only [zipXor, List.zipWith_cons_cons, List.cons.injEq]
      exact ⟨Nat.xor_comm x y, ih ys⟩

theorem zipXor_self (a : List Nat) : zipXor a a = List.replicate a.length 0 := by
  induction a with
  | nil => rfl
  | cons x xs ih =>
    simp only [zipXor, List.zipWith_cons_cons, List.length_cons, List.replicate_succ,
      List.cons.injEq]
    exact ⟨Nat.xor_self x, ih⟩

theorem zipXor_zero_left (L : Nat) (a : List Nat) (h : a.length = L) :
    zipXor (List.replicate L 0) a = a := by
  induction a generalizing L with
  | nil => subst h; rfl
  | cons x xs ih =>
    subst h
    simp only [List.length_cons, List.replicate_succ, zipXor, List.zipWith_cons_cons,
      List.cons.injEq]
    exact ⟨Nat.zero_xor x, ih _ rfl⟩

theorem zipXor_length (a b : List Nat) :
    (zipXor a b).length = min a.length b.length := by
  simp [zipXor]

theorem xorAll_nil (L : Nat) : xorAll L [] = List.replicate L 0 := rfl

theorem xorAll_cons (L : Nat) (s : List Nat) (l : List (List Nat)) :
    xorAll L (s :: l) = zipXor s (xorAll L l) := rfl

theorem xorAll_length (L : Nat) (l : List (List Nat))
    (h : ∀ s ∈ l, s.length = L) : (xorAll L l).length = L := by
  induction l with
  | nil => simp [xorAll]
  | cons s rest ih =>
    have hs : s.length = L := h s (List.mem_cons_self _ _)
    have hr := ih (fun t ht => h t (List.mem_cons_of_mem _ ht))
    rw [xorAll_cons, zipXor_length, hs, hr]
    exact Nat.min_self L

theorem foldl_zipXor_eq_xorAll (L : Nat) (s : List Nat) (rest : List (List Nat))
    (hs : s.length = L) (hr : ∀ t ∈ rest, t.length = L) :
    rest.foldl zipXor s = zipXor s (xorAll L rest) := by
  induction rest generalizing s with
  | nil =>
    rw [List.foldl_nil, xorAll_nil, zipXor_comm, zipXor_zero_left L s hs]
  | cons t ts ih =>
    have ht : t.length = L := hr t (List.mem_cons_self _ _)
    have hts : ∀ u ∈ ts, u.length = L := fun u hu => hr u (List.mem_cons_of_mem _ hu)
    have hst : (zipXor s t).length = L := by
      rw [zipXor_length, hs, ht]; exact Nat.min_self L
    rw [List.foldl_cons, ih (zipXor s t) hst hts, xorAll_cons, zipXor_assoc]

theorem nova_calculate_block_parity_eq_xorAll (L : Nat) (stripes : List (List Nat))
    (hne : stripes ≠ []) (h : ∀ s ∈ stripes, s.length = L) :
    nova_calculate_block_parity stripes = xorAll L stripes := by
  cases stripes with
  | nil => exact absurd rfl hne
  | cons s rest =>
    have hs : s.length = L := h s (List.mem_cons_self _ _)
    have hr : ∀ t ∈ rest, t.length = L := fun t ht => h t (List.mem_cons_of_mem _ ht)
    rw [xorAll_cons]
    exact foldl_zipXor_eq_xorAll L s rest hs hr

/-! ## Copy-on-write checksum update (dax.c `nova_update_cow_csum`)

The function walks the freshly written NVMM data blocks `blocknr, blocknr+1,
...` together with the write buffer `wrbuf` (whose first byte lands at byte
`offset` of the first block) and stores one whole-block CRC32C per covered
block: a chained head-block checksum, plain middle-block checksums, and a
chained tail-block checksum.  `blocks` holds the post-copy contents of the
NVMM data blocks starting at `blocknr` (each of size `bs`); the result pairs
each covered block's index (relative to `blocknr`) with the checksum written
to its `nova_get_block_csum_addr` slot, and also returns the C function's
return value `bytes - csummed`. -/

theorem cowCsumMid_csummed_lt (bs bytes : Nat) (wrbuf : List Nat) :
    ∀ fuel st, st.csummed < bytes →
      (cowCsumMid bs bytes wrbuf fuel st).csummed < bytes := by
  intro fuel
  induction fuel with
  | zero => intro st h; exact h
  | succ n ih =>
    intro st h
    rw [cowCsumMid]
    split
    · exact ih _ (by assumption)
    · exact h

theorem zipXor_zero_right (L : Nat) (a : List Nat) (h : a.length = L) :
    zipXor a (List.replicate L 0) = a := by
  rw [zipXor_comm]; exact zipXor_zero_left L a h

theorem zipXor_left_comm (a b c : List Nat) :
    zipXor a (zipXor b c) = zipXor b (zipXor a c) := by
  rw [← zipXor_assoc, zipXor_comm a b, zipXor_assoc]

theorem xorAll_append_cons (L : Nat) (l1 l2 : List (List Nat)) (a : List Nat) :
    xorAll L (l1 ++ a :: l2) = zipXor a (xorAll L (l1 ++ l2)) := by
  induction l1 with
  | nil => rfl
  | cons s t ih =>
    simp only [List.cons_append, xorAll_cons, ih]
    exact zipXor_left_comm s a (xorAll L (t ++ l2))

/-- Replacing one stripe of a block by the XOR-parity of the whole block and
re-computing the parity yields the replaced stripe back: the algebraic heart
of `nova_restore_data`. -/
theorem xorAll_replace_by_parity (L : Nat) (l1 l2 : List (List Nat)) (a : List Nat)
    (h : ∀ s ∈ l1 ++ a :: l2, s.length = L) :
    xorAll L (l1 ++ xorAll L (l1 ++ a :: l2) :: l2) = a := by
  have ha : a.length = L := h a (by simp)
  have hrest : ∀ s ∈ l1 ++ l2, s.length = L := by
    intro s hs
    apply h
    rcases List.mem_append.mp hs with h1 | h2
    · exact List.mem_append.mpr (Or.inl h1)
    · exact List.mem_append.mpr (Or.inr (List.mem_cons_of_mem _ h2))
  have hR : (xorAll L (l1 ++ l2)).length = L := xorAll_length L _ hrest
  rw [xorAll_append_cons, xorAll_append_cons, zipXor_assoc, zipXor_self, hR,
    zipXor_zero_right L a ha]

/-! ## List slice helpers -/

theorem take_of_take_eq {l m : List Nat} {bytes pos n : Nat}
    (h : l.take bytes = m.take bytes) (hn : pos + n ≤ bytes) :
    (l.drop pos).take n = (m.drop pos).take n := by
  have hl : (l.drop pos).take n = ((l.take bytes).drop pos).take n := by
    rw [List.drop_take, List.take_take, Nat.min_eq_left (by omega)]
  have hm : (m.drop pos).take n = ((m.take bytes).drop pos).take n := by
    rw [List.drop_take, List.take_take, Nat.min_eq_left (by omega)]
  rw [hl, hm, h]

theorem flat_block_slice (bs : Nat) (blocks : List (List Nat))
    (hlen : ∀ b ∈ blocks, b.length = bs) :
    ∀ j, j < blocks.length →
      blocks.getD j [] = (blocks.flatten.drop (j * bs)).take bs := by
  induction blocks with
  | nil => intro j hj; simp at hj
  | cons b rest ih =>
    intro j hj
    have hb : b.length = bs := hlen b (List.mem_cons_self _ _)
    cases j with
    | zero =>
      simp only [List.getD, List.flatten_cons, Nat.zero_mul, List.drop_zero]
      rw [List.take_append_of_le_length (by omega)]
      simp [List.take_of_length_le (le_of_eq hb)]
    | succ k =>
      have hk : k < rest.length := by simpa using hj
      have := ih (fun t ht => hlen t (List.mem_cons_of_mem _ ht)) k hk
      simp only [List.getD_cons_succ, List.flatten_cons]
      rw [this, Nat.succ_mul, Nat.add_comm (k * bs) bs, List.drop_append_eq_append_drop]
      have h1 : List.drop (bs + k * bs) b = [] := List.drop_eq_nil_of_le (by omega)
      have h2 : bs + k * bs - b.length = k * bs := by omega
      rw [h1, h2, List.nil_append]

theorem cowCsumMid_guard_false (bs bytes : Nat) (wrbuf : List Nat) (hbs : 0 < bs) :
    ∀ fuel st, bytes ≤ st.csummed + fuel →
      ¬((cowCsumMid bs bytes wrbuf fuel st).csummed + bs < bytes) := by
  intro fuel
  induction fuel with
  | zero => intro st h; rw [cowCsumMid]; omega
  | succ n ih =>
    intro st h
    rw [cowCsumMid]
    split
    · exact ih _ (by show bytes ≤ st.csummed + bs + n; omega)
    · omega

/-- Invariant preservation and per-entry correctness of the middle loop:
every stored middle-block checksum is the single-call CRC of the entire
post-write block contents. -/
theorem cowCsumMid_spec
    (bs bytes offset : Nat) (blocks : List (List Nat)) (wrbuf : List Nat)
    (hbs : 0 < bs)
    (hlen : ∀ b ∈ blocks, b.length = bs)
    (hfit : offset + bytes ≤ blocks.length * bs)
    (hcopy : (blocks.flatten.drop offset).take bytes = wrbuf.take bytes) :
    ∀ fuel st,
      offset + st.bufpos = st.blkIdx * bs →
      st.bufpos = st.csummed →
      (∀ p ∈ st.stored, p.2 = nova_calc_data_csum NOVA_INIT_CSUM (blocks.getD p.1 [])) →
      (offset + (cowCsumMid bs bytes wrbuf fuel st).bufpos
          = (cowCsumMid bs bytes wrbuf fuel st).blkIdx * bs) ∧
      ((cowCsumMid bs bytes wrbuf fuel st).bufpos
          = (cowCsumMid bs bytes wrbuf fuel st).csummed) ∧
      (∀ p ∈ (cowCsumMid bs bytes wrbuf fuel st).stored,
        p.2 = nova_calc_data_csum NOVA_INIT_CSUM (blocks.getD p.1 [])) := by
  intro fuel
  induction fuel with
  | zero => intro st h1 h2 h3; exact ⟨h1, h2, h3⟩
  | succ n ih =>
    intro st h1 h2 h3
    rw [cowCsumMid]
    split
    case isTrue hguard =>
      apply ih
      · show offset + (st.bufpos + bs) = (st.blkIdx + 1) * bs
        rw [Nat.add_mul, Nat.one_mul, ← h1]; omega
      · show st.bufpos + bs = st.csummed + bs
        omega
      · intro p hp
        have hlt : st.blkIdx < blocks.length := by
          have hle : (st.blkIdx + 1) * bs ≤ blocks.length * bs := by
            rw [Nat.add_mul, Nat.one_mul, ← h1]; omega
          have := Nat.le_of_mul_le_mul_right hle hbs
          omega
        have hslice : blocks.getD st.blkIdx [] = (wrbuf.drop st.bufpos).take bs := by
          rw [flat_block_slice bs blocks hlen st.blkIdx hlt, ← h1]
          have hd : blocks.flatten.drop (offset + st.bufpos)
              = (blocks.flatten.drop offset).drop st.bufpos := by
            rw [List.drop_drop, Nat.add_comm]
          rw [hd]
          exact take_of_take_eq hcopy (by omega)
        rcases List.mem_append.mp hp with hm | hm
        · exact h3 p hm
        · have hpe : p = (st.blkIdx,
              nova_calc_data_csum NOVA_INIT_CSUM ((wrbuf.drop st.bufpos).take bs)) := by
            simpa using hm
          rw [hpe, hslice]
    case isFalse => exact ⟨h1, h2, h3⟩

theorem flatten_length_of (bs : Nat) (blocks : List (List Nat))
    (hlen : ∀ b ∈ blocks, b.length = bs) :
    blocks.flatten.length = blocks.length * bs := by
  induction blocks with
  | nil => simp
  | cons b rest ih =>
    simp only [List.flatten_cons, List.length_append, List.length_cons]
    rw [hlen b (List.mem_cons_self _ _),
      ih (fun t ht => hlen t (List.mem_cons_of_mem _ ht))]
    ring

/-- The head-stage checksum is the single-call CRC of the whole first block's
post-write contents. -/
theorem cowCsumHead_spec
    (bs : Nat) (blocks : List (List Nat)) (wrbuf : List Nat) (offset bytes : Nat)
    (hbs : 0 < bs) (hoff : offset < bs)
    (hlen : ∀ b ∈ blocks, b.length = bs)
    (hfit : offset + bytes ≤ blocks.length * bs)
    (hcopy : (blocks.flatten.drop offset).take bytes = wrbuf.take bytes) :
    ∀ p ∈ (cowCsumHead bs blocks wrbuf offset bytes).stored,
      p.2 = nova_calc_data_csum NOVA_INIT_CSUM (blocks.getD p.1 []) := by
  intro p hp
  rw [cowCsumHead] at hp
  by_cases h0 : offset ≠ 0
  · rw [if_pos h0] at hp
    have hbne : 0 < blocks.length := by
      by_contra hc
      have : blocks.length = 0 := by omega
      rw [this] at hfit
      omega
    have hblk0 : (blocks.getD 0 []).length = bs := by
      cases blocks with
      | nil => simp at hbne
      | cons b rest => exact hlen b (List.mem_cons_self _ _)
    set blk0 := blocks.getD 0 [] with hblk0def
    set csummed := min (bs - offset) bytes with hcs
    -- the written span of the head block equals the start of the write buffer
    have hslice : (blk0.drop offset).take csummed = wrbuf.take csummed := by
      have h1 : blk0 = blocks.flatten.take bs := by
        rw [hblk0def, flat_block_slice bs blocks hlen 0 hbne]
        simp
      have h2 : (blk0.drop offset).take csummed
          = (blocks.flatten.drop offset).take csummed := by
        rw [h1, List.drop_take, List.take_take, Nat.min_eq_left (by omega)]
      have h3 : (blocks.flatten.drop offset).take csummed = wrbuf.take csummed := by
        have := congrArg (List.take csummed) hcopy
        rwa [List.take_take, Nat.min_eq_left (by omega), List.take_take,
          Nat.min_eq_left (by omega)] at this
      rw [h2, h3]
    -- decompose the head block around the written span
    have hdecomp : blk0 = blk0.take offset ++ wrbuf.take csummed
        ++ blk0.drop (offset + csummed) := by
      rw [← hslice]
      have h4 : (blk0.drop offset).drop csummed = blk0.drop (offset + csummed) := by
        rw [List.drop_drop, Nat.add_comm]
      rw [← h4, List.append_assoc, List.take_append_drop, List.take_append_drop]
    have hpe : p.2 = (if offset + csummed < bs then
        nova_calc_data_csum (nova_calc_data_csum (nova_calc_data_csum NOVA_INIT_CSUM
          (blk0.take offset)) (wrbuf.take csummed))
          ((blk0.drop (offset + csummed)).take (bs - offset - csummed))
      else nova_calc_data_csum (nova_calc_data_csum NOVA_INIT_CSUM
          (blk0.take offset)) (wrbuf.take csummed)) ∧ p.1 = 0 := by
      simp only [List.mem_singleton] at hp
      rw [hp]
      exact ⟨rfl, rfl⟩
    rcases hpe with ⟨hv, hi⟩
    rw [hv, hi]
    by_cases hin : offset + csummed < bs
    · rw [if_pos hin]
      have hdt : (blk0.drop (offset + csummed)).take (bs - offset - csummed)
          = blk0.drop (offset + csummed) := by
        apply List.take_of_length_le
        rw [List.length_drop, hblk0]
        omega
      rw [hdt]
      show nova_calc_data_csum _ _ = nova_calc_data_csum NOVA_INIT_CSUM blk0
      rw [nova_calc_data_csum, nova_calc_data_csum, nova_calc_data_csum,
        nova_calc_data_csum, ← crc32c_append, ← crc32c_append,
        ← List.append_assoc, ← hdecomp]
    · rw [if_neg hin]
      have hfull : blk0.drop (offset + csummed) = [] := by
        apply List.drop_eq_nil_of_le
        rw [hblk0]
        omega
      rw [hfull, List.append_nil] at hdecomp
      show nova_calc_data_csum _ _ = nova_calc_data_csum NOVA_INIT_CSUM blk0
      rw [nova_calc_data_csum, nova_calc_data_csum, nova_calc_data_csum,
        ← crc32c_append, ← hdecomp]
  · rw [if_neg h0] at hp
    simp at hp

/-- The tail-stage checksum is the single-call CRC of the whole last block's
post-write contents. -/
theorem cowCsumTail_spec
    (bs bytes offset : Nat) (blocks : List (List Nat)) (wrbuf : List Nat)
    (st : CsumSt)
    (hbs : 0 < bs)
    (hlen : ∀ b ∈ blocks, b.length = bs)
    (hfit : offset + bytes ≤ blocks.length * bs)
    (hcopy : (blocks.flatten.drop offset).take bytes = wrbuf.take bytes)
    (h1 : offset + st.bufpos = st.blkIdx * bs)
    (h2 : st.bufpos = st.csummed)
    (hg : ¬(st.csummed + bs < bytes))
    (h3 : ∀ p ∈ st.stored, p.2 = nova_calc_data_csum NOVA_INIT_CSUM (blocks.getD p.1 [])) :
    ∀ p ∈ (cowCsumTail bs blocks wrbuf bytes st).1,
      p.2 = nova_calc_data_csum NOVA_INIT_CSUM (blocks.getD p.1 []) := by
  intro p hp
  rw [cowCsumTail] at hp
  by_cases hlt : st.csummed < bytes
  · rw [if_pos hlt] at hp
    rcases List.mem_append.mp hp with hm | hm
    · exact h3 p hm
    · set rem := bytes - st.csummed with hrem
      have hremle : rem ≤ bs := by omega
      have hltb : st.blkIdx < blocks.length := by
        by_contra hc
        have hge : blocks.length ≤ st.blkIdx := by omega
        have := Nat.mul_le_mul_right bs hge
        omega
      set blkT := blocks.getD st.blkIdx [] with hblkTdef
      have hflat : blkT = (blocks.flatten.drop (st.blkIdx * bs)).take bs := by
        rw [hblkTdef]; exact flat_block_slice bs blocks hlen st.blkIdx hltb
      have hblkT : blkT.length = bs := by
        rw [hflat, List.length_take, List.length_drop,
          flatten_length_of bs blocks hlen]
        have : (st.blkIdx + 1) * bs ≤ blocks.length * bs :=
          Nat.mul_le_mul_right bs (by omega)
        rw [Nat.add_mul, Nat.one_mul] at this
        omega
      have hslice : blkT.take rem = (wrbuf.drop st.bufpos).take rem := by
        have ha : blkT.take rem = (blocks.flatten.drop (st.blkIdx * bs)).take rem := by
          rw [hflat, List.take_take, Nat.min_eq_left hremle]
        have hb : blocks.flatten.drop (st.blkIdx * bs)
            = (blocks.flatten.drop offset).drop st.bufpos := by
          rw [List.drop_drop, Nat.add_comm offset st.bufpos, ← h1, Nat.add_comm]
        rw [ha, hb]
        exact take_of_take_eq hcopy (by omega)
      have hdt : (blkT.drop rem).take (bs - rem) = blkT.drop rem := by
        apply List.take_of_length_le
        rw [List.length_drop, hblkT]
      have hpe : p = (st.blkIdx,
          nova_calc_data_csum (nova_calc_data_csum NOVA_INIT_CSUM
            ((wrbuf.drop st.bufpos).take rem)) ((blkT.drop rem).take (bs - rem))) := by
        simpa using hm
      rw [hpe]
      show nova_calc_data_csum _ _ = nova_calc_data_csum NOVA_INIT_CSUM blkT
      rw [hdt, ← hslice, nova_calc_data_csum, nova_calc_data_csum,
        nova_calc_data_csum, ← crc32c_append, List.take_append_drop]
  · rw [if_neg hlt] at hp
    exact h3 p hp

theorem cowCsumHead_fields (bs : Nat) (blocks : List (List Nat)) (wrbuf : List Nat)
    (offset bytes : Nat) :
    (cowCsumHead bs blocks wrbuf offset bytes).csummed
        = (if offset ≠ 0 then min (bs - offset) bytes else 0) ∧
    (cowCsumHead bs blocks wrbuf offset bytes).bufpos
        = (cowCsumHead bs blocks wrbuf offset bytes).csummed ∧
    (cowCsumHead bs blocks wrbuf offset bytes).blkIdx
        = (if offset ≠ 0 then 1 else 0) := by
  rw [cowCsumHead]
  split
  case isTrue h => simp [h]
  case isFalse h => simp [h]

/-- C5: every checksum stored by `nova_update_cow_csum` — chained partial head
block, whole middle blocks, chained partial tail block — equals the
single-call CRC32C over the complete post-write contents of the covered
physical block.  `blocks` are the post-copy NVMM block contents starting at
`blocknr`, and `hcopy` states that the copy stage placed `wrbuf` at byte
`offset` of that block range. -/
theorem nova_update_cow_csum_whole_block
    (bs : Nat) (blocks : List (List Nat)) (wrbuf : List Nat) (offset bytes : Nat)
    (hbs : 0 < bs) (hoff : offset < bs)
    (hlen : ∀ b ∈ blocks, b.length = bs)
    (hfit : offset + bytes ≤ blocks.length * bs)
    (hcopy : (blocks.flatten.drop offset).take bytes = wrbuf.take bytes) :
    ∀ p ∈ (nova_update_cow_csum bs blocks wrbuf offset bytes).1,
      p.2 = nova_calc_data_csum NOVA_INIT_CSUM (blocks.getD p.1 []) := by
  intro p hp
  rw [nova_update_cow_csum] at hp
  have hhead := cowCsumHead_spec bs blocks wrbuf offset bytes hbs hoff hlen hfit hcopy
  by_cases hc : (cowCsumHead bs blocks wrbuf offset bytes).csummed < bytes
  · rw [if_pos hc] at hp
    obtain ⟨hf1, hf2, hf3⟩ := cowCsumHead_fields bs blocks wrbuf offset bytes
    have hinv1 : offset + (cowCsumHead bs blocks wrbuf offset bytes).bufpos
        = (cowCsumHead bs blocks wrbuf offset bytes).blkIdx * bs := by
      rw [hf2, hf1, hf3]
      by_cases h0 : offset ≠ 0
      · rw [if_pos h0, if_pos h0]
        rw [hf1, if_pos h0] at hc
        omega
      · rw [if_neg h0, if_neg h0]
        omega
    have hmid := cowCsumMid_spec bs bytes offset blocks wrbuf hbs hlen hfit hcopy
      bytes _ hinv1 hf2 hhead
    have hg := cowCsumMid_guard_false bs bytes wrbuf hbs bytes
      (cowCsumHead bs blocks wrbuf offset bytes) (by omega)
    exact cowCsumTail_spec bs bytes offset blocks wrbuf _ hbs hlen hfit hcopy
      hmid.1 hmid.2.1 hg hmid.2.2 p hp
  · rw [if_neg hc] at hp
    exact hhead p hp

/-- C9: `nova_update_cow_csum` always checksums all `bytes` input bytes and
returns 0 when the in-block `offset` is below the block size, so the caller's
computation `csummed = copied - nova_update_cow_csum(...)` always reaches
`csummed == copied` and the "not all data bytes are checksummed" warning in
`nova_cow_file_write` is unreachable. -/
theorem nova_update_cow_csum_ret_zero
    (bs : Nat) (blocks : List (List Nat)) (wrbuf : List Nat) (offset bytes : Nat)
    (hbs : 0 < bs) (hoff : offset < bs) :
    (nova_update_cow_csum bs blocks wrbuf offset bytes).2 = 0 ∧
    (∀ copied : Nat,
      copied - (nova_update_cow_csum bs blocks wrbuf offset bytes).2 = copied) := by
  have hret : (nova_update_cow_csum bs blocks wrbuf offset bytes).2 = 0 := by
    rw [nova_update_cow_csum]
    by_cases hc : (cowCsumHead bs blocks wrbuf offset bytes).csummed < bytes
    · rw [if_pos hc, cowCsumTail]
      have hlt := cowCsumMid_csummed_lt bs bytes wrbuf bytes _ hc
      rw [if_pos hlt]
      exact Nat.sub_self bytes
    · rw [if_neg hc]
      obtain ⟨hf1, _, _⟩ := cowCsumHead_fields bs blocks wrbuf offset bytes
      by_cases h0 : offset ≠ 0
      · rw [hf1, if_pos h0] at hc ⊢
        omega
      · rw [hf1, if_neg h0] at hc ⊢
        omega
  exact ⟨hret, fun copied => by rw [hret, Nat.sub_zero]⟩

/-- Witness for `nova_update_cow_csum_whole_block` at a concrete sub-block
write: block size 2, two blocks, write of 2 bytes at offset 1. -/
theorem nova_update_cow_csum_whole_block_witness :
    ((0 : Nat) < 2 ∧ (1 : Nat) < 2 ∧ (∀ b ∈ [[5, 6], [7, 8]], List.length b = 2) ∧
      1 + 2 ≤ List.length [[5, 6], [7, 8]] * 2 ∧
      (List.take 2 (List.drop 1 (List.flatten [[5, 6], [7, 8]]))
        = List.take 2 [6, 7])) ∧
    (∀ p ∈ (nova_update_cow_csum 2 [[5, 6], [7, 8]] [6, 7] 1 2).1,
      p.2 = nova_calc_data_csum NOVA_INIT_CSUM ([[5, 6], [7, 8]].getD p.1 [])) :=
  ⟨⟨by decide, by decide, by decide, by decide, by decide⟩,
   nova_update_cow_csum_whole_block 2 [[5, 6], [7, 8]] [6, 7] 1 2
     (by decide) (by decide) (by decide) (by decide) (by decide)⟩

/-- Witness for `nova_update_cow_csum_ret_zero` at block size 2, offset 1. -/
theorem nova_update_cow_csum_ret_zero_witness :
    ((0 : Nat) < 2 ∧ (1 : Nat) < 2) ∧
    (nova_update_cow_csum 2 [[5, 6], [7, 8]] [6, 7] 1 2).2 = 0 :=
  ⟨⟨by decide, by decide⟩,
   (nova_update_cow_csum_ret_zero 2 [[5, 6], [7, 8]] [6, 7] 1 2
     (by decide) (by decide)).1⟩

/-! ## Parity update, stripe restore (parity.c) -/

theorem xorAll_set (L : Nat) (l : List (List Nat)) (b : Nat) (y : List Nat)
    (hb : b < l.length) (hl : ∀ s ∈ l, s.length = L) :
    xorAll L (l.set b y) = zipXor (zipXor (xorAll L l) (l.getD b [])) y := by
  induction l generalizing b with
  | nil => simp at hb
  | cons s rest ih =>
    have hs : s.length = L := hl s (List.mem_cons_self _ _)
    have hrest : ∀ t ∈ rest, t.length = L := fun t ht => hl t (List.mem_cons_of_mem _ ht)
    have hR : (xorAll L rest).length = L := xorAll_length L rest hrest
    cases b with
    | zero =>
      simp only [List.set_cons_zero, List.getD_cons_zero, xorAll_cons]
      rw [zipXor_comm s (xorAll L rest), zipXor_assoc (xorAll L rest) s s,
        zipXor_self s, hs, zipXor_zero_right L _ hR, zipXor_comm]
    | succ k =>
      have hk : k < rest.length := by simpa using hb
      simp only [List.set_cons_succ, List.getD_cons_succ, xorAll_cons]
      rw [ih k hk hrest, zipXor_assoc s (xorAll L rest) (rest.getD k []),
        zipXor_assoc s _ y, zipXor_assoc]

theorem xorAll_set_self_parity (L : Nat) (l : List (List Nat)) (b : Nat)
    (hb : b < l.length) (hl : ∀ s ∈ l, s.length = L) :
    xorAll L (l.set b (xorAll L l)) = l.getD b [] := by
  have hX : (xorAll L l).length = L := xorAll_length L l hl
  have hg : (l.getD b []).length = L := by
    rw [List.getD_eq_getElem l [] hb]
    exact hl _ (List.getElem_mem hb)
  rw [xorAll_set L l b _ hb hl, zipXor_comm (xorAll L l) (l.getD b []),
    zipXor_assoc, zipXor_self, hX, zipXor_zero_right L _ hg]

/-- C6: `nova_restore_data` assembles the block from the surviving stripes
with the stored parity in place of the bad stripe, recomputes the candidate
stripe, succeeds exactly when the candidate's CRC matches one of the two
stored checksum copies (overwriting the bad stripe in place), returns -EIO
without writing otherwise, and — when exactly one stripe is corrupted while
parity and a stored checksum copy are intact — restores the original block
exactly. -/
theorem nova_restore_data_spec
    (L : Nat) (block : List (List Nat)) (badStrpId : Nat) (par : List Nat)
    (csum0 csum1 : Nat)
    (hbad : badStrpId < block.length)
    (hlen : ∀ s ∈ block, s.length = L) :
    ((nova_restore_data block badStrpId (some par) csum0 csum1 true none).1 = 0 ↔
      (nova_crc32c NOVA_INIT_CSUM
          (nova_calculate_block_parity (block.set badStrpId par)) = csum0 ∨
       nova_crc32c NOVA_INIT_CSUM
          (nova_calculate_block_parity (block.set badStrpId par)) = csum1)) ∧
    ((nova_crc32c NOVA_INIT_CSUM
          (nova_calculate_block_parity (block.set badStrpId par)) = csum0 ∨
      nova_crc32c NOVA_INIT_CSUM
          (nova_calculate_block_parity (block.set badStrpId par)) = csum1) →
      nova_restore_data block badStrpId (some par) csum0 csum1 true none
        = (0, block.set badStrpId
            (nova_calculate_block_parity (block.set badStrpId par)))) ∧
    (¬(nova_crc32c NOVA_INIT_CSUM
          (nova_calculate_block_parity (block.set badStrpId par)) = csum0 ∨
       nova_crc32c NOVA_INIT_CSUM
          (nova_calculate_block_parity (block.set badStrpId par)) = csum1) →
      nova_restore_data block badStrpId (some par) csum0 csum1 true none
        = (-eio, block)) ∧
    (∀ orig : List (List Nat),
      orig.length = block.length →
      (∀ i, i < block.length → i ≠ badStrpId → block.getD i [] = orig.getD i []) →
      (∀ s ∈ orig, s.length = L) →
      par = nova_calculate_block_parity orig →
      csum0 = nova_crc32c NOVA_INIT_CSUM (orig.getD badStrpId []) →
      nova_restore_data block badStrpId (some par) csum0 csum1 true none
        = (0, orig)) := by
  have hval : ∀ c0 c1 : Nat, nova_restore_data block badStrpId (some par) c0 c1 true none
      = (if nova_crc32c NOVA_INIT_CSUM
            (nova_calculate_block_parity (block.set badStrpId par)) = c0 ∨
          nova_crc32c NOVA_INIT_CSUM
            (nova_calculate_block_parity (block.set badStrpId par)) = c1 then
          (0, block.set badStrpId
            (nova_calculate_block_parity (block.set badStrpId par)))
        else (-eio, block)) := by
    intro c0 c1
    rfl
  refine ⟨?_, ?_, ?_, ?_⟩
  · rw [hval]
    split
    case isTrue h => simpa using h
    case isFalse h =>
      simp only [Prod.fst]
      constructor
      · intro h0
        exact absurd h0 (by rw [eio]; omega)
      · intro hm
        exact absurd hm h
  · intro hm
    rw [hval, if_pos hm]
  · intro hm
    rw [hval, if_neg hm]
  · intro orig hlen2 hagree horiglen hpar hcs
    have hne : orig ≠ [] := by
      intro hc
      rw [hc] at hlen2
      simp at hlen2
      omega
    have hparx : par = xorAll L orig := by
      rw [hpar, nova_calculate_block_parity_eq_xorAll L orig hne horiglen]
    have hparlen : par.length = L := by
      rw [hparx]
      exact xorAll_length L orig horiglen
    have hseteq : block.set badStrpId par = orig.set badStrpId par := by
      apply List.ext_getElem (by simp [hlen2])
      intro i h1 h2
      by_cases hi : i = badStrpId
      · subst hi
        rw [List.getElem_set_self, List.getElem_set_self]
      · rw [List.getElem_set_ne (fun hc => hi hc.symm),
          List.getElem_set_ne (fun hc => hi hc.symm)]
        have hib : i < block.length := by simpa using h1
        have hio : i < orig.length := by simpa [hlen2] using h1
        have := hagree i hib hi
        rwa [List.getD_eq_getElem block [] hib, List.getD_eq_getElem orig [] hio] at this
    have hsetlen : ∀ s ∈ block.set badStrpId par, s.length = L := by
      intro s hs
      rcases List.mem_or_eq_of_mem_set hs with h | h
      · exact hlen s h
      · rw [h]; exact hparlen
    have hsetne : block.set badStrpId par ≠ [] := by
      intro hc
      have h0 : (block.set badStrpId par).length = 0 := by rw [hc]; rfl
      rw [List.length_set] at h0
      omega
    have hcand : nova_calculate_block_parity (block.set badStrpId par)
        = orig.getD badStrpId [] := by
      rw [nova_calculate_block_parity_eq_xorAll L _ hsetne hsetlen, hseteq, hparx]
      have hbo : badStrpId < orig.length := by omega
      exact xorAll_set_self_parity L orig badStrpId hbo horiglen
    have hmatch : nova_crc32c NOVA_INIT_CSUM
        (nova_calculate_block_parity (block.set badStrpId par)) = csum0 ∨
        nova_crc32c NOVA_INIT_CSUM
        (nova_calculate_block_parity (block.set badStrpId par)) = csum1 := by
      left
      rw [hcand, hcs]
    rw [hval, if_pos hmatch, hcand]
    have hfinal : block.set badStrpId (orig.getD badStrpId []) = orig := by
      apply List.ext_getElem (by simp [hlen2])
      intro i h1 h2
      by_cases hi : i = badStrpId
      · subst hi
        rw [List.getElem_set_self, List.getD_eq_getElem orig [] (by omega)]
      · rw [List.getElem_set_ne (fun hc => hi hc.symm)]
        have hib : i < block.length := by simpa using h1
        have := hagree i hib hi
        rwa [List.getD_eq_getElem block [] hib,
          List.getD_eq_getElem orig [] (by omega)] at this
    rw [hfinal]

/-- C10: both parity update functions end in a literal `return 0` on every
path — including a failed parity-buffer allocation or a NULL block pointer,
where the parity write is skipped (`none`) and the internally computed error
code is discarded — so no caller can observe a missed parity update. -/
theorem nova_parity_update_always_returns_zero
    (strpWords : Nat) (allocOk : Bool) (block : Option (List (List Nat)))
    (zero : Bool) (bs strpSize offset bytes : Nat)
    (sse42 dataCsum dataParity allocOk2 : Bool)
    (stripes : List (List Nat)) (beyond : List Nat) :
    (nova_update_block_parity strpWords allocOk block zero).1 = 0 ∧
    (nova_update_block_csum_parity bs strpSize offset bytes sse42 dataCsum
      dataParity allocOk2 stripes beyond).1 = 0 ∧
    (nova_update_block_parity strpWords false block zero).2 = none ∧
    (nova_update_block_parity strpWords allocOk none zero).2 = none := by
  refine ⟨?_, ?_, ?_, ?_⟩
  · cases allocOk with
    | false => rfl
    | true =>
      cases block with
      | none => rfl
      | some stripes => cases zero with
        | false => rfl
        | true => rfl
  · rw [nova_update_block_csum_parity]
    split
    · split <;> rfl
    · rfl
  · rfl
  · cases allocOk <;> rfl

theorem xorAll_zero_width (l : List (List Nat)) : xorAll 0 l = [] := by
  induction l with
  | nil => rfl
  | cons s rest ih =>
    rw [xorAll_cons, ih]
    cases s <;> rfl

theorem zipWith_crc_nil_right (accs : List Nat) (stripes : List (List Nat))
    (hlen : accs.length = stripes.length) (hnil : ∀ s ∈ stripes, s = []) :
    List.zipWith (fun a s => crc32c a (s.flatMap (leBytes 8))) accs stripes = accs := by
  induction accs generalizing stripes with
  | nil => cases stripes with
    | nil => rfl
    | cons s ss => simp at hlen
  | cons a as ih =>
    cases stripes with
    | nil => simp at hlen
    | cons s ss =>
      have hs : s = [] := hnil s (List.mem_cons_self _ _)
      simp only [List.zipWith_cons_cons, List.cons.injEq]
      constructor
      · rw [hs]; rfl
      · exact ih ss (by simpa using hlen) (fun t ht => hnil t (List.mem_cons_of_mem _ ht))

theorem zipWith_crc_step (accs : List Nat) (stripes : List (List Nat))
    (hne : ∀ s ∈ stripes, s ≠ []) :
    List.zipWith (fun a s => crc32c a (s.flatMap (leBytes 8))) accs stripes
      = List.zipWith (fun a s => crc32c a (s.flatMap (leBytes 8)))
          (List.zipWith (fun a q => nova_crc32c_qword q a) accs
            (stripes.map (fun s => s.headI)))
          (stripes.map List.tail) := by
  induction accs generalizing stripes with
  | nil => cases stripes <;> rfl
  | cons a as ih =>
    cases stripes with
    | nil => rfl
    | cons s ss =>
      cases s with
      | nil => exact absurd rfl (hne [] (List.mem_cons_self _ _))
      | cons q t =>
        simp only [List.map_cons, List.zipWith_cons_cons, List.cons.injEq,
          List.headI, List.tail]
        constructor
        · rw [nova_crc32c_qword]
          show crc32c a ((q :: t).flatMap (leBytes 8)) = crc32c (crc32c a (leBytes 8 q)) _
          rw [List.flatMap_cons, crc32c_append]
        · exact ih ss (fun u hu => hne u (List.mem_cons_of_mem _ hu))

theorem foldl_xor_eq_foldr (l : List Nat) : ∀ q : Nat,
    l.foldl Nat.xor q = q ^^^ l.foldr Nat.xor 0 := by
  induction l with
  | nil => intro q; rw [List.foldl_nil, List.foldr_nil, Nat.xor_zero]
  | cons x xs ih =>
    intro q
    rw [List.foldl_cons, List.foldr_cons]
    show List.foldl Nat.xor (q ^^^ x) xs = q ^^^ (x ^^^ List.foldr Nat.xor 0 xs)
    rw [ih (q ^^^ x), Nat.xor_assoc]

theorem xorAll_succ (w : Nat) (stripes : List (List Nat))
    (h : ∀ s ∈ stripes, s.length = w + 1) :
    xorAll (w + 1) stripes
      = (stripes.map (fun s => s.headI)).foldr Nat.xor 0
          :: xorAll w (stripes.map List.tail) := by
  induction stripes with
  | nil => rfl
  | cons s ss ih =>
    cases s with
    | nil =>
      have := h [] (List.mem_cons_self _ _)
      simp at this
    | cons q t =>
      have hih := ih (fun u hu => h u (List.mem_cons_of_mem _ hu))
      simp only [List.map_cons, xorAll_cons, List.foldr_cons, List.headI, List.tail]
      rw [hih]
      rfl

/-- The unrolled-by-8 loop computes, per stripe, the CRC32C byte fold of that
stripe, and, per word position, the XOR of the stripes. -/
theorem unrolledCsumParity_spec (w : Nat) :
    ∀ accs : List Nat, ∀ stripes : List (List Nat),
      accs.length = stripes.length →
      (∀ s ∈ stripes, s.length = w) →
      (unrolledCsumParity w accs stripes).1
        = List.zipWith (fun a s => crc32c a (s.flatMap (leBytes 8))) accs stripes ∧
      (unrolledCsumParity w accs stripes).2 = xorAll w stripes := by
  induction w with
  | zero =>
    intro accs stripes hlen h
    constructor
    · rw [unrolledCsumParity]
      exact (zipWith_crc_nil_right accs stripes hlen
        (fun s hs => List.length_eq_zero.mp (h s hs))).symm
    · rw [unrolledCsumParity, xorAll_zero_width]
  | succ n ih =>
    intro accs stripes hlen h
    have hne : ∀ s ∈ stripes, s ≠ [] := by
      intro s hs hc
      have := h s hs
      rw [hc] at this
      simp at this
    have hlen2 : (List.zipWith (fun a q => nova_crc32c_qword q a) accs
        (stripes.map (fun s => s.headI))).length = (stripes.map List.tail).length := by
      simp [hlen]
    have htails : ∀ s ∈ stripes.map List.tail, s.length = n := by
      intro s hs
      rcases List.mem_map.mp hs with ⟨t, ht, rfl⟩
      have := h t ht
      cases t with
      | nil => simp at this
      | cons x xs => simpa using this
    obtain ⟨ih1, ih2⟩ := ih _ (stripes.map List.tail) hlen2 htails
    constructor
    · rw [unrolledCsumParity]
      show (unrolledCsumParity n _ _).1 = _
      rw [ih1, ← zipWith_crc_step accs stripes hne]
    · rw [unrolledCsumParity]
      show _ :: (unrolledCsumParity n _ _).2 = _
      rw [ih2, xorAll_succ n stripes h]
      rcases hm : stripes.map (fun s => s.headI) with _ | ⟨q, rest⟩
      · rw [hm]
        rfl
      · rw [hm]
        show List.foldl Nat.xor q rest :: xorAll n (stripes.map List.tail)
            = (q ^^^ List.foldr Nat.xor 0 rest) :: xorAll n (stripes.map List.tail)
        rw [foldl_xor_eq_foldr rest q]

theorem zipWith_replicate_left (f : Nat → List Nat → Nat) (a : Nat) :
    ∀ (n : Nat) (l : List (List Nat)), l.length = n →
      List.zipWith f (List.replicate n a) l = l.map (f a) := by
  intro n
  induction n with
  | zero =>
    intro l hl
    rw [List.length_eq_zero.mp hl]
    rfl
  | succ k ih =>
    intro l hl
    cases l with
    | nil => simp at hl
    | cons x xs =>
      rw [List.replicate_succ, List.zipWith_cons_cons, List.map_cons,
        ih xs (by simpa using hl)]

/-- C8: when the unrolled-by-8 condition holds (blocksize / stripe size = 8
and the write covers all 8 stripes) and the SSE4.2 unrolled checksum path is
taken, `nova_update_block_csum_parity` stores per-stripe checksums and a
parity stripe bit-identical to the generic stripe-loop paths
(`nova_update_block_csum` and `nova_calculate_block_parity`) on the same
block contents. -/
theorem nova_update_block_csum_parity_unrolled_eq
    (bs strpSize offset bytes : Nat) (stripes : List (List Nat)) (beyond : List Nat)
    (hdiv : bs / strpSize = 8)
    (hnum : (offset % strpSize + bytes - 1) / strpSize + 1 = 8)
    (hns : stripes.length = 8)
    (hws : ∀ s ∈ stripes, s.length = strpSize / 8) :
    nova_update_block_csum_parity bs strpSize offset bytes true true true true
        stripes beyond
      = (0, some (nova_update_block_csum stripes),
          some (nova_calculate_block_parity stripes)) := by
  obtain ⟨h1, h2⟩ := unrolledCsumParity_spec (strpSize / 8)
    (List.replicate 8 NOVA_INIT_CSUM) stripes (by simp [hns]) hws
  have hcrcs : (unrolledCsumParity (strpSize / 8)
      (List.replicate 8 NOVA_INIT_CSUM) stripes).1.map (fun a => a % 2 ^ 32)
      = nova_update_block_csum stripes := by
    rw [h1, zipWith_replicate_left _ _ 8 stripes hns, List.map_map,
      nova_update_block_csum]
    apply List.map_congr_left
    intro s _
    show crc32c NOVA_INIT_CSUM (s.flatMap (leBytes 8)) % 2 ^ 32
        = nova_crc32c NOVA_INIT_CSUM s
    rw [nova_crc32c]
    exact Nat.mod_eq_of_lt (crc32c_lt _ _ (by rw [NOVA_INIT_CSUM]; norm_num))
  have hnonempty : stripes ≠ [] := by
    intro hc
    rw [hc] at hns
    simp at hns
  have hpar : (unrolledCsumParity (strpSize / 8)
      (List.replicate 8 NOVA_INIT_CSUM) stripes).2
      = nova_calculate_block_parity stripes := by
    rw [h2, nova_calculate_block_parity_eq_xorAll (strpSize / 8) stripes hnonempty hws]
  have hb1 : (bs / strpSize == 8) = true := by rw [hdiv]; rfl
  have hb2 : ((offset % strpSize + bytes - 1) / strpSize + 1 == 8) = true := by
    rw [hnum]
    rfl
  simp only [nova_update_block_csum_parity, hb1, hb2, Bool.and_self, Bool.true_and,
    Bool.and_true, Bool.or_self, if_true, Bool.not_true, Bool.and_false, if_false,
    Bool.false_and, ite_true, ite_false]
  rw [hcrcs, hpar]
  simp

/-- Witness for `nova_update_block_csum_parity_unrolled_eq`: 8 one-word
stripes (stripe size 8 bytes, block size 64), whole-block write. -/
theorem nova_update_block_csum_parity_unrolled_eq_witness :
    ((64 : Nat) / 8 = 8 ∧ ((0 : Nat) % 8 + 64 - 1) / 8 + 1 = 8 ∧
      List.length [[1], [2], [3], [4], [5], [6], [7], [8]] = 8 ∧
      (∀ s ∈ [[1], [2], [3], [4], [5], [6], [7], [8]], List.length s = 8 / 8)) ∧
    nova_update_block_csum_parity 64 8 0 64 true true true true
        [[1], [2], [3], [4], [5], [6], [7], [8]] [9]
      = (0, some (nova_update_block_csum [[1], [2], [3], [4], [5], [6], [7], [8]]),
          some (nova_calculate_block_parity [[1], [2], [3], [4], [5], [6], [7], [8]])) :=
  ⟨⟨by decide, by decide, by decide, by decide⟩,
   nova_update_block_csum_parity_unrolled_eq 64 8 0 64
     [[1], [2], [3], [4], [5], [6], [7], [8]] [9]
     (by decide) (by decide) (by decide) (by decide)⟩

set_option maxRecDepth 8192 in
/-- Witness for `nova_restore_data_spec`: a two-stripe block whose stripe 0
is corrupted; the stored parity of the original block and the stored
checksum copy of the original stripe let `nova_restore_data` rebuild the
original block exactly. -/
theorem nova_restore_data_spec_witness :
    ((0 : Nat) < List.length [[9, 9], [3, 4]] ∧
      (∀ s ∈ [[9, 9], [3, 4]], List.length s = 2)) ∧
    nova_restore_data [[9, 9], [3, 4]] 0 (some [2, 6])
        (nova_crc32c NOVA_INIT_CSUM [1, 2]) 0 true none = (0, [[1, 2], [3, 4]]) :=
  ⟨⟨by decide, by decide⟩,
   (nova_restore_data_spec 2 [[9, 9], [3, 4]] 0 [2, 6]
      (nova_crc32c NOVA_INIT_CSUM [1, 2]) 0 (by decide) (by decide)).2.2.2
     [[1, 2], [3, 4]] (by decide) (by decide) (by decide) (by decide) (by decide)⟩

/-! ## File write entries and the head/tail partial-block fill (dax.c) -/

theorem listWrite_length (dst : List Nat) (pos : Nat) (src : List Nat)
    (h : pos + src.length ≤ dst.length) :
    (listWrite dst pos src).length = dst.length := by
  simp only [listWrite, List.length_append, List.length_take, List.length_drop]
  omega

theorem listWrite_getElem_lt (dst : List Nat) (pos : Nat) (src : List Nat)
    (i : Nat) (hi : i < pos) (hp : pos ≤ dst.length) :
    (listWrite dst pos src)[i]? = dst[i]? := by
  have ht : (dst.take pos).length = pos := by rw [List.length_take]; omega
  rw [listWrite, List.getElem?_append, List.length_append, ht,
    if_pos (by omega), List.getElem?_append, ht, if_pos hi,
    List.getElem?_take_of_lt hi]

theorem listWrite_getElem_ge (dst : List Nat) (pos : Nat) (src : List Nat)
    (i : Nat) (hi : pos + src.length ≤ i) (hp : pos ≤ dst.length) :
    (listWrite dst pos src)[i]? = dst[i]? := by
  have ht : (dst.take pos).length = pos := by rw [List.length_take]; omega
  rw [listWrite, List.getElem?_append, List.length_append, ht,
    if_neg (by omega), List.getElem?_drop]
  congr 1
  omega

theorem listWrite_suffix (dst : List Nat) (pos : Nat) (src : List Nat)
    (h : pos + src.length = dst.length) :
    (listWrite dst pos src).drop pos = src := by
  have hd : dst.drop (pos + src.length) = [] :=
    List.drop_eq_nil_of_le (le_of_eq h.symm)
  rw [listWrite, hd, List.append_nil, List.drop_append_eq_append_drop,
    List.drop_eq_nil_of_le (by rw [List.length_take]; omega), List.nil_append,
    List.length_take]
  have h2 : pos - min pos dst.length = 0 := by omega
  rw [h2, List.drop_zero]

theorem listWrite_prefix (dst : List Nat) (src : List Nat)
    (h : src.length ≤ dst.length) :
    (listWrite dst 0 src).take src.length = src := by
  rw [listWrite, List.take_zero, List.nil_append,
    List.take_append_of_le_length (le_refl _), List.take_length]

theorem listWrite_take (dst : List Nat) (pos : Nat) (src : List Nat)
    (off : Nat) (hoff : off ≤ pos) (hp : pos ≤ dst.length) :
    (listWrite dst pos src).take off = dst.take off := by
  have ht : (dst.take pos).length = pos := by rw [List.length_take]; omega
  rw [listWrite, List.take_append_of_le_length (by
      rw [List.length_append, ht]; omega),
    List.take_append_of_le_length (by rw [ht]; omega),
    List.take_take, Nat.min_eq_left hoff]

theorem blockBytes_length (mem : Nat → Nat) (bs b : Nat) :
    (blockBytes mem bs b).length = bs := by
  rw [blockBytes, List.length_map, List.length_range]

theorem headFill_length (mem : Nat → Nat) (entries : Nat → Option WEntry)
    (bs pos : Nat) (kmem : List Nat) (hbs : 0 < bs) (hk : bs ≤ kmem.length) :
    (headFill mem entries bs pos kmem).length = kmem.length := by
  rw [headFill]
  have hoff : pos % bs < bs := Nat.mod_lt pos hbs
  split
  · cases hm : entries (pos / bs) with
    | none =>
      rw [listWrite_length]
      rw [List.length_replicate]
      omega
    | some e =>
      show (listWrite kmem 0
        ((blockBytes mem bs (get_nvmm e (pos / bs))).take (pos % bs))).length
          = kmem.length
      rw [listWrite_length]
      rw [List.length_take, blockBytes_length]
      omega
  · rfl

theorem headFill_getElem_ge (mem : Nat → Nat) (entries : Nat → Option WEntry)
    (bs pos : Nat) (kmem : List Nat) (hbs : 0 < bs) (hk : bs ≤ kmem.length)
    (i : Nat) (hi : pos % bs ≤ i) :
    (headFill mem entries bs pos kmem)[i]? = kmem[i]? := by
  rw [headFill]
  have hoff : pos % bs < bs := Nat.mod_lt pos hbs
  split
  · cases hm : entries (pos / bs) with
    | none =>
      rw [listWrite_getElem_ge]
      · rw [List.length_replicate]; omega
      · omega
    | some e =>
      show (listWrite kmem 0
        ((blockBytes mem bs (get_nvmm e (pos / bs))).take (pos % bs)))[i]?
          = kmem[i]?
      rw [listWrite_getElem_ge]
      · rw [List.length_take, blockBytes_length]; omega
      · omega
  · rfl

theorem headFill_take (mem : Nat → Nat) (entries : Nat → Option WEntry)
    (bs pos : Nat) (kmem : List Nat) (hbs : 0 < bs) (hk : bs ≤ kmem.length)
    (h0 : pos % bs ≠ 0) :
    (headFill mem entries bs pos kmem).take (pos % bs)
      = (match entries (pos / bs) with
         | none => List.replicate (pos % bs) 0
         | some e => (blockBytes mem bs (get_nvmm e (pos / bs))).take (pos % bs)) := by
  rw [headFill]
  have hoff : pos % bs < bs := Nat.mod_lt pos hbs
  rw [if_pos h0]
  cases hm : entries (pos / bs) with
  | none =>
    have := listWrite_prefix kmem (List.replicate (pos % bs) 0)
      (by rw [List.length_replicate]; omega)
    rwa [List.length_replicate] at this
  | some e =>
    show (listWrite kmem 0
      ((blockBytes mem bs (get_nvmm e (pos / bs))).take (pos % bs))).take (pos % bs)
        = (blockBytes mem bs (get_nvmm e (pos / bs))).take (pos % bs)
    have hlen : ((blockBytes mem bs (get_nvmm e (pos / bs))).take (pos % bs)).length
        = pos % bs := by
      rw [List.length_take, blockBytes_length]; omega
    have := listWrite_prefix kmem
      ((blockBytes mem bs (get_nvmm e (pos / bs))).take (pos % bs))
      (by rw [hlen]; omega)
    rwa [hlen] at this

theorem tailFill_getElem_lt (mem : Nat → Nat) (entries : Nat → Option WEntry)
    (bs pos count : Nat) (kmem1 : List Nat) (hbs : 0 < bs)
    (hk1 : kmem1.length = ((count + pos % bs - 1) / bs + 1) * bs)
    (i : Nat)
    (hi : i < ((count + pos % bs - 1) / bs) * bs
        + (if (pos + count) % bs = 0 then bs else (pos + count) % bs)) :
    (tailFill mem entries bs pos count kmem1)[i]? = kmem1[i]? := by
  rw [tailFill]
  have heoff : (pos + count) % bs < bs := Nat.mod_lt _ hbs
  have hk2 : kmem1.length = (count + pos % bs - 1) / bs * bs + bs := by
    rw [hk1, Nat.add_mul, Nat.one_mul]
  have hBb : ((count + pos % bs - 1) / bs + 1 - 1) * bs
      = (count + pos % bs - 1) / bs * bs := by
    rw [Nat.add_sub_cancel]
  by_cases h0 : (pos + count) % bs ≠ 0
  · rw [if_neg h0] at hi
    rw [if_pos h0]
    cases hm : entries (pos / bs + ((count + pos % bs - 1) / bs + 1) - 1) with
    | none =>
      rw [hBb, listWrite_getElem_lt]
      · omega
      · omega
    | some e =>
      rw [hBb]
      show ((kmem1.take ((count + pos % bs - 1) / bs * bs))
          ++ listWrite (kmem1.drop ((count + pos % bs - 1) / bs * bs))
               ((pos + count) % bs)
               ((blockBytes mem bs
                  (get_nvmm e (pos / bs + ((count + pos % bs - 1) / bs + 1) - 1))).drop
                 ((pos + count) % bs)))[i]? = kmem1[i]?
      have htl : (kmem1.take ((count + pos % bs - 1) / bs * bs)).length
          = (count + pos % bs - 1) / bs * bs := by
        rw [List.length_take]
        omega
      by_cases hib : i < (count + pos % bs - 1) / bs * bs
      · rw [List.getElem?_append, htl, if_pos hib, List.getElem?_take_of_lt hib]
      · rw [List.getElem?_append, htl, if_neg hib,
          listWrite_getElem_lt _ _ _ _ (by omega) (by rw [List.length_drop]; omega),
          List.getElem?_drop]
        congr 1
        omega
  · rw [if_neg h0]

theorem tailFill_take (mem : Nat → Nat) (entries : Nat → Option WEntry)
    (bs pos count : Nat) (kmem1 : List Nat) (hbs : 0 < bs) (hc : 0 < count)
    (hk1 : kmem1.length = ((count + pos % bs - 1) / bs + 1) * bs) :
    (tailFill mem entries bs pos count kmem1).take (pos % bs)
      = kmem1.take (pos % bs) := by
  rw [tailFill]
  have heoff : (pos + count) % bs < bs := Nat.mod_lt _ hbs
  have hoff : pos % bs < bs := Nat.mod_lt _ hbs
  have hk2 : kmem1.length = (count + pos % bs - 1) / bs * bs + bs := by
    rw [hk1, Nat.add_mul, Nat.one_mul]
  have hBb : ((count + pos % bs - 1) / bs + 1 - 1) * bs
      = (count + pos % bs - 1) / bs * bs := by
    rw [Nat.add_sub_cancel]
  by_cases h0 : (pos + count) % bs ≠ 0
  · rw [if_pos h0]
    have hoffle : pos % bs ≤ (count + pos % bs - 1) / bs * bs + (pos + count) % bs := by
      by_cases hB : pos % bs ≤ (count + pos % bs - 1) / bs * bs
      · omega
      · have hB0 : (count + pos % bs - 1) / bs = 0 := by
          by_contra hc2
          have hge : 1 ≤ (count + pos % bs - 1) / bs :=
            Nat.one_le_iff_ne_zero.mpr hc2
          have h1 : 1 * bs ≤ (count + pos % bs - 1) / bs * bs :=
            Nat.mul_le_mul_right bs hge
          rw [Nat.one_mul] at h1
          omega
        have hlt : count + pos % bs - 1 < bs := by
          by_contra hge2
          have := Nat.div_pos (by omega : bs ≤ count + pos % bs - 1) hbs
          omega
        have hmod : (pos + count) % bs = (pos % bs + count) % bs := by
          conv_lhs => rw [← Nat.div_add_mod pos bs]
          rw [Nat.add_assoc, Nat.mul_add_mod]
        by_cases hfull : pos % bs + count < bs
        · rw [hmod, Nat.mod_eq_of_lt hfull]
          omega
        · have hfe : pos % bs + count = bs := by omega
          rw [hmod, hfe, Nat.mod_self] at h0
          exact absurd rfl h0
    cases hm : entries (pos / bs + ((count + pos % bs - 1) / bs + 1) - 1) with
    | none =>
      rw [hBb, listWrite_take]
      · exact hoffle
      · omega
    | some e =>
      rw [hBb]
      show ((kmem1.take ((count + pos % bs - 1) / bs * bs))
          ++ listWrite (kmem1.drop ((count + pos % bs - 1) / bs * bs))
               ((pos + count) % bs)
               ((blockBytes mem bs
                  (get_nvmm e (pos / bs + ((count + pos % bs - 1) / bs + 1) - 1))).drop
                 ((pos + count) % bs))).take (pos % bs)
          = kmem1.take (pos % bs)
      have htl : (kmem1.take ((count + pos % bs - 1) / bs * bs)).length
          = (count + pos % bs - 1) / bs * bs := by
        rw [List.length_take]
        omega
      by_cases hB : pos % bs ≤ (count + pos % bs - 1) / bs * bs
      · rw [List.take_append_of_le_length (by omega), List.take_take,
          Nat.min_eq_left hB]
      · have hB0 : (count + pos % bs - 1) / bs = 0 := by
          by_contra hc2
          have hge : 1 ≤ (count + pos % bs - 1) / bs :=
            Nat.one_le_iff_ne_zero.mpr hc2
          have h1 : 1 * bs ≤ (count + pos % bs - 1) / bs * bs :=
            Nat.mul_le_mul_right bs hge
          rw [Nat.one_mul] at h1
          omega
        rw [hB0, Nat.zero_mul, List.take_zero, List.nil_append, List.drop_zero,
          listWrite_take]
        · rw [hB0, Nat.zero_mul, Nat.zero_add] at hoffle
          exact hoffle
        · omega
  · rw [if_neg h0]

theorem tailFill_drop (mem : Nat → Nat) (entries : Nat → Option WEntry)
    (bs pos count : Nat) (kmem1 : List Nat) (hbs : 0 < bs)
    (hk1 : kmem1.length = ((count + pos % bs - 1) / bs + 1) * bs)
    (h0 : (pos + count) % bs ≠ 0) :
    (tailFill mem entries bs pos count kmem1).drop
        ((count + pos % bs - 1) / bs * bs + (pos + count) % bs)
      = (match entries (pos / bs + (count + pos % bs - 1) / bs) with
         | none => List.replicate (bs - (pos + count) % bs) 0
         | some e => (blockBytes mem bs
             (get_nvmm e (pos / bs + (count + pos % bs - 1) / bs))).drop
             ((pos + count) % bs)) := by
  rw [tailFill]
  have heoff : (pos + count) % bs < bs := Nat.mod_lt _ hbs
  have hk2 : kmem1.length = (count + pos % bs - 1) / bs * bs + bs := by
    rw [hk1, Nat.add_mul, Nat.one_mul]
  have hBb : ((count + pos % bs - 1) / bs + 1 - 1) * bs
      = (count + pos % bs - 1) / bs * bs := by
    rw [Nat.add_sub_cancel]
  have hend : pos / bs + ((count + pos % bs - 1) / bs + 1) - 1
      = pos / bs + (count + pos % bs - 1) / bs := by
    rw [← Nat.add_assoc, Nat.add_sub_cancel]
  rw [if_pos h0, hend]
  cases hm : entries (pos / bs + (count + pos % bs - 1) / bs) with
  | none =>
    rw [hBb]
    have := listWrite_suffix kmem1
      ((count + pos % bs - 1) / bs * bs + (pos + count) % bs)
      (List.replicate (bs - (pos + count) % bs) 0)
      (by rw [List.length_replicate]; omega)
    exact this
  | some e =>
    rw [hBb]
    show ((kmem1.take ((count + pos % bs - 1) / bs * bs))
        ++ listWrite (kmem1.drop ((count + pos % bs - 1) / bs * bs))
             ((pos + count) % bs)
             ((blockBytes mem bs
                (get_nvmm e (pos / bs + (count + pos % bs - 1) / bs))).drop
               ((pos + count) % bs))).drop
          ((count + pos % bs - 1) / bs * bs + (pos + count) % bs)
        = (blockBytes mem bs
            (get_nvmm e (pos / bs + (count + pos % bs - 1) / bs))).drop
            ((pos + count) % bs)
    have htl : (kmem1.take ((count + pos % bs - 1) / bs * bs)).length
        = (count + pos % bs - 1) / bs * bs := by
      rw [List.length_take]
      omega
    rw [List.drop_append_eq_append_drop, List.drop_eq_nil_of_le (by omega),
      List.nil_append, htl]
    have harg : (count + pos % bs - 1) / bs * bs + (pos + count) % bs
        - (count + pos % bs - 1) / bs * bs = (pos + count) % bs := by
      omega
    rw [harg, listWrite_suffix]
    rw [List.length_drop, blockBytes_length, List.length_drop]
    omega

/-- C2: for a COW write covering `[pos, pos + count)`, the head/tail fill
preserves the pre-write content byte-for-byte: the first new block's bytes
`[0, offset)` become the old mapped block's bytes there (zero for a hole),
the last new block's bytes `[eblk_offset, bs)` become the old content there
(zero for a hole), and every byte in between — the region the write itself
covers — is left untouched by the fill. -/
theorem nova_handle_head_tail_blocks_spec
    (mem : Nat → Nat) (entries : Nat → Option WEntry) (bs pos count : Nat)
    (kmem : List Nat)
    (hbs : 0 < bs) (hc : 0 < count)
    (hk : kmem.length = ((count + pos % bs - 1) / bs + 1) * bs) :
    (pos % bs ≠ 0 →
      (nova_handle_head_tail_blocks mem entries bs pos count kmem).take (pos % bs)
        = (match entries (pos / bs) with
           | none => List.replicate (pos % bs) 0
           | some e => (blockBytes mem bs (get_nvmm e (pos / bs))).take (pos % bs))) ∧
    ((pos + count) % bs ≠ 0 →
      (nova_handle_head_tail_blocks mem entries bs pos count kmem).drop
          ((count + pos % bs - 1) / bs * bs + (pos + count) % bs)
        = (match entries (pos / bs + (count + pos % bs - 1) / bs) with
           | none => List.replicate (bs - (pos + count) % bs) 0
           | some e => (blockBytes mem bs
               (get_nvmm e (pos / bs + (count + pos % bs - 1) / bs))).drop
               ((pos + count) % bs))) ∧
    (∀ i, pos % bs ≤ i →
      i < (count + pos % bs - 1) / bs * bs
          + (if (pos + count) % bs = 0 then bs else (pos + count) % bs) →
      (nova_handle_head_tail_blocks mem entries bs pos count kmem)[i]?
        = kmem[i]?) := by
  have hbsk : bs ≤ kmem.length := by
    rw [hk, Nat.add_mul, Nat.one_mul]
    omega
  have hk1 : (headFill mem entries bs pos kmem).length = kmem.length :=
    headFill_length mem entries bs pos kmem hbs hbsk
  refine ⟨?_, ?_, ?_⟩
  · intro h0
    rw [nova_handle_head_tail_blocks,
      tailFill_take mem entries bs pos count _ hbs hc (by rw [hk1, hk]),
      headFill_take mem entries bs pos kmem hbs hbsk h0]
  · intro h0
    rw [nova_handle_head_tail_blocks,
      tailFill_drop mem entries bs pos count _ hbs (by rw [hk1, hk]) h0]
  · intro i h1 h2
    rw [nova_handle_head_tail_blocks,
      tailFill_getElem_lt mem entries bs pos count _ hbs (by rw [hk1, hk]) i h2,
      headFill_getElem_ge mem entries bs pos kmem hbs hbsk i h1]

/-- Witness for `nova_handle_head_tail_blocks_spec`: a 4-byte-block file,
write of 4 bytes at position 2 (head block mapped at physical block 3, end
block a hole); the head prefix is copied from the old block. -/
theorem nova_handle_head_tail_blocks_spec_witness :
    ((0 : Nat) < 4 ∧ (0 : Nat) < 4 ∧
      List.length [20, 21, 22, 23, 24, 25, 26, 27]
        = ((4 + 2 % 4 - 1) / 4 + 1) * 4) ∧
    ((2 : Nat) % 4 ≠ 0 →
      (nova_handle_head_tail_blocks (fun a => a)
          (fun i => if i = 0 then some ⟨1, 0, 0, 0, 1, 0, 3, 0, 0⟩ else none)
          4 2 4 [20, 21, 22, 23, 24, 25, 26, 27]).take (2 % 4)
        = (match (fun i => if i = 0 then
              some (⟨1, 0, 0, 0, 1, 0, 3, 0, 0⟩ : WEntry) else none) (2 / 4) with
           | none => List.replicate (2 % 4) 0
           | some e => (blockBytes (fun a => a) 4 (get_nvmm e (2 / 4))).take (2 % 4))) :=
  ⟨⟨by decide, by decide, by decide⟩,
   (nova_handle_head_tail_blocks_spec (fun a => a)
      (fun i => if i = 0 then some ⟨1, 0, 0, 0, 1, 0, 3, 0, 0⟩ else none)
      4 2 4 [20, 21, 22, 23, 24, 25, 26, 27]
      (by decide) (by decide) (by decide)).1⟩

/-! ## Read path (dax.c `do_dax_mapping_read`, `nova_verify_data_csum`) -/

theorem readLoop_csum_gate (mem : Nat → Nat) (entries : Nat → Option WEntry)
    (storedCsum : Nat → Nat) (csumEnabled : Bool) (bs isize len : Nat) :
    ∀ fuel index offset copied acc,
      (csumEnabled = true → ∀ c ∈ acc, chunkOK mem storedCsum bs c) →
      ((readLoop mem entries storedCsum csumEnabled bs isize len fuel index
          offset copied acc).mismatch = true →
        (readLoop mem entries storedCsum csumEnabled bs isize len fuel index
          offset copied acc).ret
          = (if (readLoop mem entries storedCsum csumEnabled bs isize len fuel
              index offset copied acc).copied = 0 then -eio
             else ((readLoop mem entries storedCsum csumEnabled bs isize len fuel
              index offset copied acc).copied : Int))) ∧
      (csumEnabled = true →
        ∀ c ∈ (readLoop mem entries storedCsum csumEnabled bs isize len fuel
          index offset copied acc).chunks, chunkOK mem storedCsum bs c) := by
  intro fuel
  induction fuel with
  | zero =>
    intro index offset copied acc hacc
    constructor
    · intro h
      simp [readLoop] at h
    · intro hce
      exact fun c hc => hacc hce c hc
  | succ n ih =>
    intro index offset copied acc hacc
    rw [readLoop]
    split
    · exact ⟨fun h => by simp at h, fun hce c hc => hacc hce c hc⟩
    · split
      · exact ⟨fun h => by simp at h, fun hce c hc => hacc hce c hc⟩
      · split
        · -- hole: zero chunk, no checksum involved
          dsimp only
          have hz : csumEnabled = true →
              ∀ c ∈ acc ++ [RChunk.zeros (min (bs - offset) (len - copied))],
                chunkOK mem storedCsum bs c := by
            intro hce c hc
            rcases List.mem_append.mp hc with h | h
            · exact hacc hce c h
            · rw [List.mem_singleton.mp h]
              trivial
          split
          · exact ih _ _ _ _ hz
          · exact ⟨fun h => by simp at h, hz⟩
        · rename_i e heq
          split
          · exact ⟨fun h => by simp at h, fun hce c hc => hacc hce c hc⟩
          · dsimp only
            generalize (if e.reassigned = 0 then
              (e.num_pages - (index - e.pgoff)) * bs else bs) = nr0
            split
            case isTrue hfail =>
              constructor
              · intro _
                show (if 0 < copied then (copied : Int) else -eio)
                    = if copied = 0 then -eio else (copied : Int)
                by_cases hc0 : copied = 0
                · rw [hc0, if_neg (by omega), if_pos rfl]
                · rw [if_pos (by omega), if_neg hc0]
              · exact fun hce c hc => hacc hce c hc
            case isFalse hok =>
              have hchunk : csumEnabled = true →
                  chunkOK mem storedCsum bs
                    (RChunk.data (get_nvmm e index) offset
                      ((offset + min (nr0 - offset) (len - copied) - 1) / bs + 1)
                      ((List.range (min (nr0 - offset) (len - copied))).map
                        (fun j => mem (get_nvmm e index * bs + offset + j)))) := by
                intro hce
                rw [hce, Bool.true_and, Bool.not_eq_true', Bool.not_eq_false] at hok
                intro k hk
                have hall := List.all_eq_true.mp hok
                have := hall k (List.mem_range.mpr hk)
                exact eq_of_beq this
              have hz : csumEnabled = true →
                  ∀ c ∈ acc ++ [RChunk.data (get_nvmm e index) offset
                      ((offset + min (nr0 - offset) (len - copied) - 1) / bs + 1)
                      ((List.range (min (nr0 - offset) (len - copied))).map
                        (fun j => mem (get_nvmm e index * bs + offset + j)))],
                    chunkOK mem storedCsum bs c := by
                intro hce c hc
                rcases List.mem_append.mp hc with h | h
                · exact hacc hce c h
                · rw [List.mem_singleton.mp h]
                  exact hchunk hce
              split
              · exact ih _ _ _ _ hz
              · exact ⟨fun h => by simp at h, hz⟩

theorem readLoop_holes (mem : Nat → Nat) (entries : Nat → Option WEntry)
    (storedCsum : Nat → Nat) (csumEnabled : Bool) (bs isize len : Nat)
    (hall : ∀ i, entries i = none) :
    ∀ fuel index offset copied acc,
      (∀ c ∈ acc, ∃ n2, c = RChunk.zeros n2) →
      (readLoop mem entries storedCsum csumEnabled bs isize len fuel index
        offset copied acc).mismatch = false ∧
      (∀ c ∈ (readLoop mem entries storedCsum csumEnabled bs isize len fuel
        index offset copied acc).chunks, ∃ n2, c = RChunk.zeros n2) ∧
      0 ≤ (readLoop mem entries storedCsum csumEnabled bs isize len fuel index
        offset copied acc).ret := by
  intro fuel
  induction fuel with
  | zero =>
    intro index offset copied acc hacc
    refine ⟨rfl, hacc, ?_⟩
    show 0 ≤ if 0 < copied then (copied : Int) else 0
    split
    · exact Int.natCast_nonneg copied
    · exact le_refl 0
  | succ n ih =>
    intro index offset copied acc hacc
    rw [readLoop]
    split
    · refine ⟨rfl, hacc, ?_⟩
      dsimp only
      split
      · exact Int.natCast_nonneg copied
      · exact le_refl 0
    · split
      · refine ⟨rfl, hacc, ?_⟩
        dsimp only
        split
        · exact Int.natCast_nonneg copied
        · exact le_refl 0
      · rw [hall index]
        dsimp only
        have hz : ∀ c ∈ acc ++ [RChunk.zeros (min (bs - offset) (len - copied))],
            ∃ n2, c = RChunk.zeros n2 := by
          intro c hc
          rcases List.mem_append.mp hc with h | h
          · exact hacc c h
          · exact ⟨_, List.mem_singleton.mp h⟩
        split
        · exact ih _ _ _ _ hz
        · refine ⟨rfl, hz, ?_⟩
          dsimp only
          split
          · exact Int.natCast_nonneg _
          · exact le_refl 0

/-- C3 (amended): in `do_dax_mapping_read` with block checksums enabled, a
resolved block whose stored checksum mismatches is never copied to the
caller — every data chunk that reaches the caller's buffer passed its
whole-block verification — and the checksum failure surfaces as -EIO exactly
when it is detected before any byte was copied; when bytes were already
copied, the call returns that short byte count instead (the C `return
(copied ? copied : error)`).  A logical offset with no matching write entry
is synthesized as zero bytes, never an error. -/
theorem do_dax_mapping_read_csum_gate
    (mem : Nat → Nat) (entries : Nat → Option WEntry) (storedCsum : Nat → Nat)
    (csumEnabled : Bool) (bs isize pos len : Nat) :
    ((do_dax_mapping_read mem entries storedCsum csumEnabled bs isize pos
        len).mismatch = true →
      (do_dax_mapping_read mem entries storedCsum csumEnabled bs isize pos
        len).ret
        = (if (do_dax_mapping_read mem entries storedCsum csumEnabled bs isize
            pos len).copied = 0 then -eio
           else ((do_dax_mapping_read mem entries storedCsum csumEnabled bs
            isize pos len).copied : Int))) ∧
    (csumEnabled = true →
      ∀ c ∈ (do_dax_mapping_read mem entries storedCsum csumEnabled bs isize
        pos len).chunks, chunkOK mem storedCsum bs c) ∧
    ((∀ i, entries i = none) →
      (do_dax_mapping_read mem entries storedCsum csumEnabled bs isize pos
        len).mismatch = false ∧
      (∀ c ∈ (do_dax_mapping_read mem entries storedCsum csumEnabled bs isize
        pos len).chunks, ∃ n2, c = RChunk.zeros n2) ∧
      0 ≤ (do_dax_mapping_read mem entries storedCsum csumEnabled bs isize pos
        len).ret) := by
  rw [do_dax_mapping_read]
  split
  · exact ⟨fun h => by simp at h, fun _ c hc => by simp at hc,
      fun _ => ⟨rfl, fun c hc => by simp at hc, le_refl 0⟩⟩
  · dsimp only
    generalize (if isize - pos < len then isize - pos else len) = len2
    split
    · exact ⟨fun h => by simp at h, fun _ c hc => by simp at hc,
        fun _ => ⟨rfl, fun c hc => by simp at hc, le_refl 0⟩⟩
    · have hgate := readLoop_csum_gate mem entries storedCsum csumEnabled bs isize
        len2 len2 (pos / bs) (pos % bs) 0 []
        (fun _ c hc => by simp at hc)
      refine ⟨hgate.1, hgate.2, ?_⟩
      intro hall
      exact readLoop_holes mem entries storedCsum csumEnabled bs isize len2 hall
        len2 (pos / bs) (pos % bs) 0 [] (fun c hc => by simp at hc)

set_option maxRecDepth 8192 in
/-- Counterexample to C3 as stated: a read of 8 bytes over two entries whose
second block's stored checksum mismatches copies the first (verified) block,
detects the mismatch, and returns the short count 4 — not -EIO — and the
mismatching block's bytes never reach the buffer. -/
theorem do_dax_mapping_read_csum_counterexample :
    (do_dax_mapping_read cexMem cexEntries cexCsum true 4 8 0 8).mismatch
        = true ∧
    nova_calc_data_csum NOVA_INIT_CSUM (blockBytes cexMem 4 20) ≠ cexCsum 20 ∧
    (do_dax_mapping_read cexMem cexEntries cexCsum true 4 8 0 8).ret = 4 ∧
    ¬((do_dax_mapping_read cexMem cexEntries cexCsum true 4 8 0 8).ret = -eio) ∧
    (do_dax_mapping_read cexMem cexEntries cexCsum true 4 8 0 8).chunks
        = [RChunk.data 10 0 1 [40, 41, 42, 43]] := by
  decide

/-! ## Lite journal (journal.c) -/

theorem softInitGo_trace_mono (fuel : Nat) (replica : Bool) (inodeSize : Nat)
    (journal : Nat → JEntry) :
    ∀ l pairs pm ret tr o,
      softInitGo fuel replica inodeSize journal l pairs pm ret tr = some o →
      ∀ t ∈ tr, t ∈ o.replayed := by
  intro l
  induction l with
  | nil =>
    intro pairs pm ret tr o h t ht
    rw [softInitGo] at h
    cases h
    exact ht
  | cons i rest ih =>
    intro pairs pm ret tr o h t ht
    rw [softInitGo] at h
    split at h
    · exact ih _ _ _ _ _ h t ht
    · split at h
      · exact (Option.noConfusion h)
      · split at h
        · exact ih _ _ _ _ _ h t (List.mem_append.mpr (Or.inl ht))
        · cases h
          exact ht

theorem softInitGo_pairs_untouched (fuel : Nat) (replica : Bool)
    (inodeSize : Nat) (journal : Nat → JEntry) :
    ∀ l pairs pm ret tr o c,
      c ∉ l →
      softInitGo fuel replica inodeSize journal l pairs pm ret tr = some o →
      o.pairs c = pairs c := by
  intro l
  induction l with
  | nil =>
    intro pairs pm ret tr o c _ h
    cases h
    rfl
  | cons i rest ih =>
    intro pairs pm ret tr o c hc h
    have hci : c ≠ i := fun he => hc (he ▸ List.mem_cons_self i rest)
    have hcr : c ∉ rest := fun hr => hc (List.mem_cons_of_mem i hr)
    rw [softInitGo] at h
    split at h
    · exact ih _ _ _ _ _ _ hcr h
    · split at h
      · exact Option.noConfusion h
      · split at h
        · have := ih _ _ _ _ _ _ hcr h
          rwa [if_neg hci] at this
        · cases h
          rfl

theorem softInitGo_checksum_failure (fuel : Nat) (replica : Bool)
    (inodeSize : Nat) (journal : Nat → JEntry) :
    ∀ l, ∀ pairs : Nat → PtrPair, ∀ pm ret tr o c addrs,
      c ∈ l → l.Nodup →
      (pairs c).journal_head ≠ (pairs c).journal_tail →
      journalAddrs fuel (pairs c).journal_head (pairs c).journal_tail
        = some addrs →
      nova_check_journal_entries journal addrs = false →
      (∀ t ∈ tr, t.1 ≠ c) →
      softInitGo fuel replica inodeSize journal l pairs pm ret tr = some o →
      o.ret = -einval ∧ ∀ t ∈ o.replayed, t.1 ≠ c := by
  intro l
  induction l with
  | nil =>
    intro pairs pm ret tr o c addrs hc
    exact absurd hc (List.not_mem_nil c)
  | cons i rest ih =>
    intro pairs pm ret tr o c addrs hc hnd hne hwalk hbad htr h
    rw [softInitGo] at h
    by_cases hci : c = i
    · subst hci
      rw [if_neg hne] at h
      rw [hwalk] at h
      dsimp only at h
      rw [if_neg (by rw [hbad]; exact Bool.false_ne_true)] at h
      cases h
      exact ⟨rfl, htr⟩
    · have hcr : c ∈ rest := by
        rcases List.mem_cons.mp hc with h1 | h1
        · exact absurd h1 hci
        · exact h1
      split at h
      · exact ih _ _ _ _ _ _ _ hcr (List.Nodup.of_cons hnd) hne hwalk hbad htr h
      · split at h
        · exact Option.noConfusion h
        · split at h
          next =>
            dsimp only at h
            refine ih _ _ _ _ _ _ _ hcr (List.Nodup.of_cons hnd) ?_ ?_ hbad ?_ h
            · simpa [hci] using hne
            · simpa [hci] using hwalk
            · intro t ht
              rcases List.mem_append.mp ht with h1 | h1
              · exact htr t h1
              · rw [List.mem_singleton.mp h1]
                exact fun he => hci he.symm
          next =>
            cases h
            exact ⟨rfl, htr⟩

theorem softInitGo_all_pass (fuel : Nat) (replica : Bool) (inodeSize : Nat)
    (journal : Nat → JEntry) :
    ∀ l : List Nat, l.Nodup → ∀ (pairs : Nat → PtrPair) pm ret tr o,
      (∀ j ∈ l, (pairs j).journal_head ≠ (pairs j).journal_tail →
        ∃ aj, journalAddrs fuel (pairs j).journal_head (pairs j).journal_tail
            = some aj ∧ nova_check_journal_entries journal aj = true) →
      softInitGo fuel replica inodeSize journal l pairs pm ret tr = some o →
      ∀ c ∈ l, ∀ addrs,
        (pairs c).journal_head ≠ (pairs c).journal_tail →
        journalAddrs fuel (pairs c).journal_head (pairs c).journal_tail
          = some addrs →
        (c, addrs) ∈ o.replayed ∧
        o.pairs c = ⟨(pairs c).journal_head, (pairs c).journal_head⟩ := by
  intro l
  induction l with
  | nil =>
    intro _ pairs pm ret tr o _ _ c hc
    exact absurd hc (List.not_mem_nil c)
  | cons i rest ih =>
    intro hnd pairs pm ret tr o hall h c hc addrs hne hwalk
    have hinr : i ∉ rest := (List.nodup_cons.mp hnd).1
    rw [softInitGo] at h
    by_cases hie : (pairs i).journal_head = (pairs i).journal_tail
    · rw [if_pos hie] at h
      rcases List.mem_cons.mp hc with hceq | hcr
      · subst hceq
        exact absurd hie hne
      · exact ih (List.Nodup.of_cons hnd) pairs pm ret tr o
          (fun j hj => hall j (List.mem_cons_of_mem _ hj)) h c hcr addrs hne hwalk
    · rw [if_neg hie] at h
      obtain ⟨ai, hwi, hchecki⟩ := hall i (List.mem_cons_self _ _) hie
      rw [hwi] at h
      dsimp only at h
      rw [if_pos hchecki] at h
      rcases List.mem_cons.mp hc with hceq | hcr
      · subst hceq
        have haddr : addrs = ai := by
          rw [hwalk] at hwi
          exact Option.some.inj hwi
        constructor
        · rw [haddr]
          exact softInitGo_trace_mono fuel replica inodeSize journal _ _ _ _ _ _ h
            (c, ai) (List.mem_append.mpr (Or.inr (List.mem_singleton.mpr rfl)))
        · have hu := softInitGo_pairs_untouched fuel replica inodeSize journal
            _ _ _ _ _ _ c hinr h
          rw [hu]
          simp [nova_recover_lite_journal]
      · have hcnei : c ≠ i := fun he => hinr (he ▸ hcr)
        have hpc : ∀ P : PtrPair, (fun j => if j = i then P else pairs j) c
            = pairs c := fun P => by simp [hcnei]
        have hall2 : ∀ j ∈ rest,
            ((fun j => if j = i then
              (nova_recover_lite_journal replica inodeSize journal pm (pairs i)
                ai).1 else pairs j) j).journal_head
            ≠ ((fun j => if j = i then
              (nova_recover_lite_journal replica inodeSize journal pm (pairs i)
                ai).1 else pairs j) j).journal_tail →
            ∃ aj, journalAddrs fuel
                ((fun j => if j = i then
                  (nova_recover_lite_journal replica inodeSize journal pm
                    (pairs i) ai).1 else pairs j) j).journal_head
                ((fun j => if j = i then
                  (nova_recover_lite_journal replica inodeSize journal pm
                    (pairs i) ai).1 else pairs j) j).journal_tail = some aj ∧
              nova_check_journal_entries journal aj = true := by
          intro j hj
          have hji : j ≠ i := fun he => hinr (he ▸ hj)
          simp only [if_neg hji]
          exact hall j (List.mem_cons_of_mem _ hj)
        obtain ⟨m1, m2⟩ := ih (List.Nodup.of_cons hnd) _ _ _ _ o hall2 h c hcr
          addrs (by simpa [hcnei] using hne) (by simpa [hcnei] using hwalk)
        refine ⟨m1, ?_⟩
        simpa [hcnei] using m2

/-- C4: at mount time, for each CPU whose journal head differs from its
tail, every entry in [head, tail) has its checksum verified before any undo
is applied; if any entry fails, `nova_lite_journal_soft_init` returns
-EINVAL (aborting the mount) and none of that CPU's entries are replayed;
if every non-empty journal passes verification, that CPU's entries are all
undo-replayed in walk order (the recorded trace is the in-order address
list folded by `nova_recover_lite_journal`) and its journal tail is set
equal to its head. -/
theorem nova_lite_journal_soft_init_spec
    (cpus fuel : Nat) (replica : Bool) (inodeSize : Nat)
    (journal : Nat → JEntry) (pairs0 : Nat → PtrPair) (pm0 : Nat → Nat)
    (c : Nat) (o : SoftInitOut) (addrs : List Nat)
    (hc : c < cpus)
    (hrun : nova_lite_journal_soft_init cpus fuel replica inodeSize journal
      pairs0 pm0 = some o)
    (hne : (pairs0 c).journal_head ≠ (pairs0 c).journal_tail)
    (hwalk : journalAddrs fuel (pairs0 c).journal_head (pairs0 c).journal_tail
      = some addrs) :
    (nova_check_journal_entries journal addrs = false →
      o.ret = -einval ∧ ∀ t ∈ o.replayed, t.1 ≠ c) ∧
    ((∀ j, j < cpus → (pairs0 j).journal_head ≠ (pairs0 j).journal_tail →
        ∃ aj, journalAddrs fuel (pairs0 j).journal_head (pairs0 j).journal_tail
            = some aj ∧ nova_check_journal_entries journal aj = true) →
      (c, addrs) ∈ o.replayed ∧
      o.pairs c = ⟨(pairs0 c).journal_head, (pairs0 c).journal_head⟩) := by
  constructor
  · intro hbad
    exact softInitGo_checksum_failure fuel replica inodeSize journal
      (List.range cpus) pairs0 pm0 0 [] o c addrs (List.mem_range.mpr hc)
      (List.nodup_range cpus) hne hwalk hbad (fun t ht => absurd ht (List.not_mem_nil t))
      hrun
  · intro hall
    exact softInitGo_all_pass fuel replica inodeSize journal (List.range cpus)
      (List.nodup_range cpus) pairs0 pm0 0 [] o
      (fun j hj => hall j (List.mem_range.mp hj)) hrun c (List.mem_range.mpr hc)
      addrs hne hwalk

set_option maxRecDepth 16384 in
/-- Witness for `nova_lite_journal_soft_init_spec`: one CPU, one verified
journal entry; recovery replays it and resets the tail to the head. -/
theorem nova_lite_journal_soft_init_spec_witness :
    ((0 : Nat) < 1 ∧
     (jrnPairs 0).journal_head ≠ (jrnPairs 0).journal_tail ∧
     nova_lite_journal_soft_init 1 2 false 0 jrnJournal jrnPairs (fun _ => 0)
       = some jrnOut ∧
     journalAddrs 2 (jrnPairs 0).journal_head (jrnPairs 0).journal_tail
       = some [4096]) ∧
    ((0, [4096]) ∈ jrnOut.replayed ∧ jrnOut.pairs 0 = ⟨4096, 4096⟩) :=
  ⟨⟨by decide, by decide, rfl, by decide⟩,
   (nova_lite_journal_soft_init_spec 1 2 false 0 jrnJournal jrnPairs
      (fun _ => 0) 0 jrnOut [4096] (by decide) rfl (by decide) (by decide)).2
     (fun j hj hne2 =>
       ⟨[4096], by show journalAddrs 2 4096 4128 = some [4096]; rfl, by decide⟩)⟩

/-- A freshly checksummed journal entry always passes the integrity check:
the checksum region excludes the csum field itself. -/
theorem check_integrity_of_update (e : JEntry) :
    nova_check_entry_integrity (nova_update_entry_checksum e) = true := by
  simp [nova_check_entry_integrity, nova_update_entry_checksum, jentryBytes]

/-- Advancing within the 4096-byte journal page by one 32-byte slot never
stays in place: the wrap branch fires only when the in-page offset is at
least 4064, and then it moves back to offset 0. -/
theorem next_lite_journal_ne (c : Nat) : next_lite_journal c ≠ c := by
  unfold next_lite_journal
  split <;> omega

/-- C7: calling create_transaction (`nova_create_inode_transaction` or
`nova_create_rename_transaction`) on a CPU whose journal head differs from
its tail hits the BUG() guard (modelled as `none`): no error code is
returned and no pending entry is overwritten.  With head = tail (and a
nonzero head), the inode transaction appends one checksummed JOURNAL_INODE
before-image entry per inode — data1 holding that inode's pi address — at
the head and the following slot, publishes the advanced position as the new
tail and returns it, and leaves the head unchanged; the rename transaction
obeys the same guard and head/tail discipline. -/
theorem nova_create_transaction_invariant
    (replica : Bool) (p : PtrPair) (jr : Nat → JEntry)
    (pi1 alt1 pi2 alt2 : Nat)
    (hnz : p.journal_head ≠ 0) :
    (p.journal_head ≠ p.journal_tail →
      nova_create_inode_transaction replica (some p) jr pi1 alt1 pi2 alt2
        = none ∧
      nova_create_rename_transaction replica (some p) jr (pi1, alt1)
        (pi2, alt2) none none none = none) ∧
    (p.journal_head = p.journal_tail →
      ∃ t jr',
        nova_create_inode_transaction replica (some p) jr pi1 alt1 pi2 alt2
          = some (t, jr', ⟨p.journal_head, t⟩) ∧
        t = next_lite_journal (next_lite_journal p.journal_head) ∧
        (jr' p.journal_head).jtype = JOURNAL_INODE ∧
        (jr' p.journal_head).data1 = pi1 ∧
        nova_check_entry_integrity (jr' p.journal_head) = true ∧
        ((jr' (next_lite_journal p.journal_head)).jtype = JOURNAL_INODE ∧
          (jr' (next_lite_journal p.journal_head)).data1 = pi2 ∧
          nova_check_entry_integrity (jr' (next_lite_journal p.journal_head))
            = true) ∧
        (∃ t2 jr2,
          nova_create_rename_transaction replica (some p) jr (pi1, alt1)
            (pi2, alt2) none none none
            = some (t2, jr2, ⟨p.journal_head, t2⟩))) := by
  constructor
  · intro hne
    constructor
    · show (if p.journal_head = 0 ∨ p.journal_head ≠ p.journal_tail then none
        else _) = none
      rw [if_pos (Or.inr hne)]
    · show (if p.journal_head = 0 ∨ p.journal_head ≠ p.journal_tail then none
        else _) = none
      rw [if_pos (Or.inr hne)]
  · intro heq
    have hcond : ¬(p.journal_head = 0 ∨ p.journal_head ≠ p.journal_tail) := by
      push_neg
      exact ⟨hnz, heq⟩
    refine ⟨next_lite_journal (next_lite_journal p.journal_head),
      (nova_append_inode_journal replica
        (nova_append_inode_journal replica p.journal_head pi1 alt1 jr).1
        pi2 alt2
        (nova_append_inode_journal replica p.journal_head pi1 alt1 jr).2).2,
      ?_, rfl, ?_, ?_, ?_, ⟨?_, ?_, ?_⟩, ?_⟩
    · show (if p.journal_head = 0 ∨ p.journal_head ≠ p.journal_tail then none
        else _) = _
      rw [if_neg hcond]
      rfl
    · simp [nova_append_inode_journal, nova_update_entry_checksum,
        (next_lite_journal_ne p.journal_head).symm, JOURNAL_INODE]
    · simp [nova_append_inode_journal, nova_update_entry_checksum,
        (next_lite_journal_ne p.journal_head).symm]
    · simp [nova_append_inode_journal,
        (next_lite_journal_ne p.journal_head).symm, check_integrity_of_update]
    · simp [nova_append_inode_journal, nova_update_entry_checksum,
        JOURNAL_INODE]
    · simp [nova_append_inode_journal, nova_update_entry_checksum]
    · simp [nova_append_inode_journal, check_integrity_of_update]
    · refine ⟨next_lite_journal (next_lite_journal p.journal_head),
        (nova_append_inode_journal replica
          (nova_append_inode_journal replica p.journal_head pi1 alt1 jr).1
          pi2 alt2
          (nova_append_inode_journal replica p.journal_head pi1 alt1 jr).2).2,
        ?_⟩
      show (if p.journal_head = 0 ∨ p.journal_head ≠ p.journal_tail then none
        else _) = _
      rw [if_neg hcond]
      rfl

/-- Witness for `nova_create_transaction_invariant`: a committed journal
(head = tail = 4096) accepting a two-inode transaction. -/
theorem nova_create_transaction_invariant_witness :
    (⟨4096, 4096⟩ : PtrPair).journal_head ≠ 0 ∧
    ((⟨4096, 4096⟩ : PtrPair).journal_head
        = (⟨4096, 4096⟩ : PtrPair).journal_tail →
      ∃ t jr',
        nova_create_inode_transaction true (some ⟨4096, 4096⟩)
            (fun _ => ⟨0, 0, 0, 0, 0⟩) 100 101 200 201
          = some (t, jr', ⟨4096, t⟩) ∧
        t = next_lite_journal (next_lite_journal 4096) ∧
        (jr' 4096).jtype = JOURNAL_INODE ∧
        (jr' 4096).data1 = 100 ∧
        nova_check_entry_integrity (jr' 4096) = true ∧
        ((jr' (next_lite_journal 4096)).jtype = JOURNAL_INODE ∧
          (jr' (next_lite_journal 4096)).data1 = 200 ∧
          nova_check_entry_integrity (jr' (next_lite_journal 4096)) = true) ∧
        (∃ t2 jr2,
          nova_create_rename_transaction true (some ⟨4096, 4096⟩)
              (fun _ => ⟨0, 0, 0, 0, 0⟩) (100, 101) (200, 201) none none none
            = some (t2, jr2, ⟨4096, t2⟩))) :=
  ⟨by decide,
   (nova_create_transaction_invariant true ⟨4096, 4096⟩
      (fun _ => ⟨0, 0, 0, 0, 0⟩) 100 101 200 201 (by decide)).2⟩

/-- The cleanup walk over a region holding exactly the extents `es` (one
FILE_WRITE entry per slot) frees exactly `es`, in order, with status 0. -/
theorem cleanupWalk_spec (log : Nat → WEntry) :
    ∀ (es : List (Nat × Nat)) (base fuel : Nat), 0 < base →
    es.length ≤ fuel →
    (∀ k, (hk : k < es.length) →
      (log (base + wentrySize * k)).entry_type = FILE_WRITE ∧
      (log (base + wentrySize * k)).blocknr = (es.get ⟨k, hk⟩).1 ∧
      (log (base + wentrySize * k)).num_pages = (es.get ⟨k, hk⟩).2) →
    cleanupWalk log fuel base (base + wentrySize * es.length)
      = some (0, es) := by
  intro es
  induction es with
  | nil =>
    intro base fuel hb hf h
    cases fuel <;> simp [cleanupWalk]
  | cons hd tl ih =>
    intro base fuel hb hf h
    match fuel with
    | 0 => simp at hf
    | f + 1 =>
      have h0 := h 0 (by simp)
      simp only [wentrySize, Nat.mul_zero, Nat.add_zero] at h0
      have harith : base + wentrySize * (hd :: tl).length
          = (base + wentrySize) + wentrySize * tl.length := by
        simp only [List.length_cons]
        ring
      rw [harith]
      show (if base = base + wentrySize + wentrySize * tl.length then _
        else if base = 0 then _
        else if (log base).entry_type ≠ FILE_WRITE then _
        else _) = _
      rw [if_neg (by simp only [wentrySize]; omega),
        if_neg (by omega),
        if_neg (by simp [h0.1])]
      have hrec := ih (base + wentrySize) f (by omega)
        (by simpa using hf)
        (by
          intro k hk
          have hk2 : k + 1 < (hd :: tl).length := by
            simp only [List.length_cons]
            omega
          have := h (k + 1) hk2
          have harith2 : base + wentrySize * (k + 1)
              = base + wentrySize + wentrySize * k := by ring
          rw [harith2] at this
          simpa using this)
      rw [hrec]
      have hb1 : (log base).blocknr = hd.1 := by simpa using h0.2.1
      have hb2 : (log base).num_pages = hd.2 := by simpa using h0.2.2
      simp [hb1, hb2]

/-- Appending one FILE_WRITE entry at the next free slot preserves the
appended-entries/log invariant. -/
theorem cowInv_snoc (origTail : Nat) (A : List (Nat × Nat × Nat))
    (log : Nat → WEntry) (bnr alloc : Nat) (e : WEntry)
    (he1 : e.entry_type = FILE_WRITE) (he2 : e.blocknr = bnr)
    (he3 : e.num_pages = alloc)
    (h : cowInv origTail A log) :
    cowInv origTail (A ++ [(origTail + wentrySize * A.length, bnr, alloc)])
      (fun a => if a = origTail + wentrySize * A.length then e
        else log a) := by
  intro k hk
  simp only [List.length_append, List.length_cons, List.length_nil] at hk
  by_cases hkl : k < A.length
  · have hget : (A ++ [(origTail + wentrySize * A.length, bnr, alloc)]).get
        ⟨k, by simp; omega⟩ = A.get ⟨k, hkl⟩ := by
      simp [List.get_eq_getElem, List.getElem_append_left hkl]
    have hne : origTail + wentrySize * k ≠ origTail + wentrySize * A.length := by
      simp only [wentrySize]
      omega
    dsimp only
    rw [hget, if_neg hne]
    exact h k hkl
  · have hk2 : k = A.length := by omega
    subst hk2
    have hget : (A ++ [(origTail + wentrySize * A.length, bnr, alloc)]).get
        ⟨A.length, by simp⟩ = (origTail + wentrySize * A.length, bnr, alloc) := by
      simp [List.get_eq_getElem, List.getElem_append_right (Nat.le_refl A.length)]
    dsimp only
    rw [hget, if_pos rfl]
    exact ⟨rfl, he1, he2, he3⟩

/-- Geometry of the COW write loop: starting from a state whose appended
entries fill consecutive slots from `origTail` (with `begin_tail` marking
the first of them, or 0 when none), every exit preserves that layout; a
short-copy break leaves the failing iteration's entry appended one slot
past the final `temp_tail`, while completion and the goto-out failures
leave `temp_tail` just past every appended entry. -/
theorem cowLoop_invariant (bs trans_id time isize origTail : Nat)
    (hot : 0 < origTail) :
    ∀ (steps : List CowStep) (st : CowSt) (ex : CowExit) (st' : CowSt),
    cowLoop bs trans_id time isize steps st = some (ex, st') →
    st.temp_tail = origTail + wentrySize * st.appended.length →
    st.begin_tail = (if st.appended.length = 0 then 0 else origTail) →
    cowInv origTail st.appended st.log →
    ((ex = CowExit.brk →
       0 < st'.appended.length ∧
       st'.temp_tail = origTail + wentrySize * (st'.appended.length - 1) ∧
       st'.begin_tail
         = (if st'.appended.length - 1 = 0 then 0 else origTail) ∧
       cowInv origTail st'.appended st'.log) ∧
     (ex ≠ CowExit.brk →
       st'.temp_tail = origTail + wentrySize * st'.appended.length ∧
       st'.begin_tail = (if st'.appended.length = 0 then 0 else origTail) ∧
       cowInv origTail st'.appended st'.log)) := by
  intro steps
  induction steps with
  | nil =>
    intro st ex st' hrun h1 h2 h3
    rw [cowLoop] at hrun
    split at hrun
    · have hp := Option.some.inj hrun
      injection hp with hex hst
      subst hex
      subst hst
      exact ⟨fun h => (by cases h), fun h => ⟨h1, h2, h3⟩⟩
    · simp at hrun
  | cons stp rest ih =>
    intro st ex st' hrun h1 h2 h3
    rw [cowLoop] at hrun
    split at hrun
    · have hp := Option.some.inj hrun
      injection hp with hex hst
      subst hex
      subst hst
      exact ⟨fun h => (by cases h), fun h => ⟨h1, h2, h3⟩⟩
    · cases stp with
      | allocFail err =>
        dsimp only at hrun
        have hp := Option.some.inj hrun
        injection hp with hex hst
        subst hex
        subst hst
        exact ⟨fun h => (by cases h), fun h => ⟨h1, h2, h3⟩⟩
      | ok bnr alloc uncopied appendOk =>
        dsimp only at hrun
        by_cases ha : alloc = 0
        · rw [if_pos ha] at hrun
          have hp := Option.some.inj hrun
          injection hp with hex hst
          subst hex
          subst hst
          exact ⟨fun h => (by cases h), fun h => ⟨h1, h2, h3⟩⟩
        · rw [if_neg ha] at hrun
          by_cases hap : appendOk = false
          · rw [if_pos hap] at hrun
            have hp := Option.some.inj hrun
            injection hp with hex hst
            subst hex
            subst hst
            exact ⟨fun h => (by cases h), fun h => ⟨h1, h2, h3⟩⟩
          · rw [if_neg hap] at hrun
            split at hrun
            · next hcb =>
              split at hrun
              all_goals
                have hp := Option.some.inj hrun
                injection hp with hex hst
                subst hex
                subst hst
                refine ⟨fun h => ⟨by simp, ?_, ?_, ?_⟩, fun h => absurd rfl h⟩
              · show st.temp_tail = _
                simpa using h1
              · show st.begin_tail = _
                simpa using h2
              · show cowInv origTail
                  (st.appended ++ [(st.temp_tail, bnr, alloc)]) _
                rw [h1]
                exact cowInv_snoc origTail st.appended st.log bnr alloc _
                  rfl rfl rfl h3
              · show st.temp_tail = _
                simpa using h1
              · show st.begin_tail = _
                simpa using h2
              · show cowInv origTail
                  (st.appended ++ [(st.temp_tail, bnr, alloc)]) _
                rw [h1]
                exact cowInv_snoc origTail st.appended st.log bnr alloc _
                  rfl rfl rfl h3
            · next hcb =>
              refine ih _ ex st' hrun ?_ ?_ ?_
              · show st.temp_tail + wentrySize = _
                simp only [List.length_append, List.length_cons,
                  List.length_nil, Nat.mul_add, Nat.mul_one]
                omega
              · show (if st.begin_tail = 0 then st.temp_tail
                  else st.begin_tail) = _
                by_cases hl : st.appended.length = 0
                · rw [h2, if_pos hl, if_pos rfl, h1, hl]
                  simp
                · rw [h2, if_neg hl, if_neg (by omega)]
                  simp
              · show cowInv origTail
                  (st.appended ++ [(st.temp_tail, bnr, alloc)]) _
                rw [h1]
                exact cowInv_snoc origTail st.appended st.log bnr alloc _
                  rfl rfl rfl h3

/-- The `out` block never runs cleanup: `ret` is a `Nat` (the `size_t`
local), so its `ret < 0` guard is false on every input and `cowOutBlock`
always produces the row with `freed = []` and the size_t→ssize_t-converted
return value. -/
theorem cowOutBlock_spec (log : Nat → WEntry) (ret : Nat)
    (written blocknr allocated begin_tail end_tail : Nat)
    (pubTails : List Nat) (appended : List (Nat × Nat × Nat))
    (ex : CowExit) :
    cowOutBlock log ret written blocknr allocated begin_tail end_tail
        pubTails appended ex
      = some ⟨ssizeOfSizet ret, written, pubTails, appended, [], false, ex,
          blocknr, allocated, begin_tail, end_tail⟩ := by
  rw [cowOutBlock, if_neg (Nat.not_lt_zero ret)]

/-- Storing a signed value in `[-2^63, 2^63)` into the `size_t` local and
reading it back as `ssize_t` is the identity. -/
theorem ssizeOfSizet_sizetOfInt (i : Int) (h1 : -(2 ^ 63) ≤ i)
    (h2 : i < 2 ^ 63) :
    ssizeOfSizet (sizetOfInt i) = i := by
  unfold ssizeOfSizet sizetOfInt
  split <;> omega

/-- The reassign walk over `m` whole slots from a nonzero base reaches the
tail and returns 0. -/
theorem reassign_walk_zero (log : Nat → WEntry) :
    ∀ (m base fuel : Nat), 0 < base → m ≤ fuel →
    nova_reassign_file_tree log fuel base (base + wentrySize * m)
      = some 0 := by
  intro m
  induction m with
  | zero =>
    intro base fuel hb hf
    cases fuel <;> simp [nova_reassign_file_tree]
  | succ n ih =>
    intro base fuel hb hf
    match fuel with
    | 0 => omega
    | f + 1 =>
      show (if base = base + wentrySize * (n + 1) then _
        else if base = 0 then _
        else nova_reassign_file_tree log f (base + wentrySize)
          (base + wentrySize * (n + 1))) = _
      rw [if_neg (by simp only [wentrySize]; omega), if_neg (by omega)]
      have harith : base + wentrySize * (n + 1)
          = (base + wentrySize) + wentrySize * n := by ring
      rw [harith]
      exact ih (base + wentrySize) f (by omega) (by omega)

/-- The reassign walk from the NULL position `begin_tail = 0` to a nonzero
tail immediately returns -EINVAL. -/
theorem reassign_walk_null (log : Nat → WEntry) (fuel e : Nat)
    (he : e ≠ 0) (hf : 0 < fuel) :
    nova_reassign_file_tree log fuel 0 e = some (-einval) := by
  obtain ⟨f, rfl⟩ : ∃ f, fuel = f + 1 := ⟨fuel - 1, by omega⟩
  show (if (0 : Nat) = e then _ else if (0 : Nat) = 0 then _ else _) = _
  rw [if_neg (by omega), if_pos rfl]

/-- After the loop the reassign call from `begin_tail` to the published
`temp_tail` returns 0 when at least one entry was appended, and -EINVAL
when `begin_tail` is still 0 (walking from the NULL position). -/
theorem cow_reassign_result (log2 : Nat → WEntry)
    (origTail m begin_tail temp_tail : Nat) (hot : 0 < origTail)
    (ht : temp_tail = origTail + wentrySize * m)
    (hb : begin_tail = (if m = 0 then 0 else origTail)) :
    nova_reassign_file_tree log2
        ((temp_tail - begin_tail) / wentrySize + 1) begin_tail temp_tail
      = some (if begin_tail = 0 then -einval else 0) := by
  by_cases hm : m = 0
  · have ht0 : temp_tail = origTail := by
      rw [ht, hm, Nat.mul_zero, Nat.add_zero]
    rw [hb, if_pos hm]
    rw [if_pos rfl]
    exact reassign_walk_null log2 _ temp_tail (by omega) (Nat.succ_pos _)
  · rw [hb, if_neg hm]
    rw [if_neg (by omega)]
    have hfuel : (temp_tail - origTail) / wentrySize + 1 = m + 1 := by
      rw [ht, Nat.add_sub_cancel_left,
        Nat.mul_div_cancel_left _
          (by norm_num [wentrySize] : 0 < wentrySize)]
    rw [hfuel, ht]
    exact reassign_walk_zero log2 m origTail (m + 1) hot (by omega)

/-- C1: the claimed unwind never happens.  `ret` is the `size_t` local of
dax.c:352, so the `if (ret < 0)` guard at dax.c:536 is an always-false
unsigned comparison: on EVERY run — allocation failure, append failure,
short copy, failed access_ok — `nova_cleanup_incomplete_write` is
unreachable and nothing is freed (`cleanupRan = false`, `freed = []`).
The tail is still published exactly once on loop completion or short-copy
break and never on the goto-out paths, where the error reaches the caller
only through the size_t→ssize_t conversion at `return ret`; on the
fallthrough paths `nova_reassign_file_tree` yields -EINVAL when
`begin_tail` is still 0 (first-iteration short copy) and otherwise
`ret = written`. -/
theorem nova_cow_file_write_no_cleanup
    (bs trans_id time isize : Nat) (mapped accessOk : Bool)
    (steps : List CowStep) (len pos0 origTail : Nat) (log : Nat → WEntry)
    (o : CowOut)
    (hrun : nova_cow_file_write bs trans_id time isize mapped accessOk steps
      len pos0 origTail log = some o) :
    o.cleanupRan = false ∧
    o.freed = [] ∧
    (∀ r, o.exit = CowExit.fail r →
      o.pubTails = [] ∧ o.ret = ssizeOfSizet (sizetOfInt r)) ∧
    (mapped = false → accessOk = true → len ≠ 0 →
      (o.exit = CowExit.done ∨ o.exit = CowExit.brk) →
      o.pubTails = [o.temp_tail] ∧
      (0 < origTail →
        (o.begin_tail = 0 → o.ret = -einval) ∧
        (o.begin_tail ≠ 0 → o.written < 2 ^ 63 →
          o.ret = (o.written : Int)))) := by
  rw [nova_cow_file_write] at hrun
  by_cases hl : len = 0
  · rw [if_pos hl] at hrun
    have ho := (Option.some.inj hrun).symm
    subst ho
    exact ⟨rfl, rfl, fun r h => (by cases h),
      fun _ _ hne => absurd hl hne⟩
  · rw [if_neg hl] at hrun
    cases mapped with
    | true =>
      rw [if_pos rfl] at hrun
      have ho := (Option.some.inj hrun).symm
      subst ho
      exact ⟨rfl, rfl, fun r h => (by cases h), fun hmf => (by cases hmf)⟩
    | false =>
      rw [if_neg (by simp)] at hrun
      cases accessOk with
      | false =>
        rw [if_pos rfl] at hrun
        rw [cowOutBlock_spec] at hrun
        have ho := (Option.some.inj hrun).symm
        subst ho
        exact ⟨rfl, rfl, fun r h => (by cases h),
          fun _ hacc => (by cases hacc)⟩
      | true =>
        rw [if_neg (by simp)] at hrun
        dsimp only at hrun
        cases hloop : cowLoop bs trans_id time isize steps
            ⟨pos0, len, (len + pos0 % bs - 1) / bs + 1, origTail, 0, 0, 0,
             0, [], log⟩ with
        | none =>
          rw [hloop] at hrun
          simp at hrun
        | some p =>
          obtain ⟨ex, st⟩ := p
          rw [hloop] at hrun
          cases ex with
          | fail r2 =>
            dsimp only at hrun
            rw [cowOutBlock_spec] at hrun
            have ho := (Option.some.inj hrun).symm
            subst ho
            refine ⟨rfl, rfl, fun r h => ?_, fun _ _ _ hde => ?_⟩
            · cases h
              exact ⟨rfl, rfl⟩
            · rcases hde with h | h <;> cases h
          | done =>
            dsimp only at hrun
            cases hre : nova_reassign_file_tree st.log
                ((st.temp_tail - st.begin_tail) / wentrySize + 1)
                st.begin_tail st.temp_tail with
            | none =>
              rw [hre] at hrun
              simp at hrun
            | some rr =>
              rw [hre] at hrun
              dsimp only at hrun
              by_cases hrr : rr = 0
              all_goals
                first
                | rw [if_pos hrr] at hrun
                | rw [if_neg hrr] at hrun
              all_goals
                rw [cowOutBlock_spec] at hrun
                have ho := (Option.some.inj hrun).symm
                subst ho
                refine ⟨rfl, rfl, fun r h => (by cases h),
                  fun _ _ _ _ => ⟨rfl, fun hot => ?_⟩⟩
                have hinv := cowLoop_invariant bs trans_id time isize
                  origTail hot steps _ CowExit.done st hloop (by simp)
                  (by simp) (by intro k hk; simp at hk)
                obtain ⟨ht, hb, hA⟩ := hinv.2 (by intro hh; cases hh)
                have hres := cow_reassign_result st.log origTail
                  st.appended.length st.begin_tail st.temp_tail hot ht hb
                have hrr2 := Option.some.inj (hres.symm.trans hre)
                constructor
              -- rr = 0 case
              · intro hb0
                rw [if_pos hb0] at hrr2
                rw [← hrr2] at hrr
                exact absurd hrr (by norm_num [einval])
              · intro hbne hw
                dsimp only at hw ⊢
                exact ssizeOfSizet_sizetOfInt _ (by omega) (by omega)
              -- rr ≠ 0 case
              · intro hb0
                rw [if_pos hb0] at hrr2
                dsimp only
                rw [← hrr2]
                exact ssizeOfSizet_sizetOfInt _ (by norm_num [einval])
                  (by norm_num [einval])
              · intro hbne hw
                rw [if_neg hbne] at hrr2
                exact absurd hrr2.symm hrr
          | brk =>
            dsimp only at hrun
            cases hre : nova_reassign_file_tree st.log
                ((st.temp_tail - st.begin_tail) / wentrySize + 1)
                st.begin_tail st.temp_tail with
            | none =>
              rw [hre] at hrun
              simp at hrun
            | some rr =>
              rw [hre] at hrun
              dsimp only at hrun
              by_cases hrr : rr = 0
              all_goals
                first
                | rw [if_pos hrr] at hrun
                | rw [if_neg hrr] at hrun
              all_goals
                rw [cowOutBlock_spec] at hrun
                have ho := (Option.some.inj hrun).symm
                subst ho
                refine ⟨rfl, rfl, fun r h => (by cases h),
                  fun _ _ _ _ => ⟨rfl, fun hot => ?_⟩⟩
                have hinv := cowLoop_invariant bs trans_id time isize
                  origTail hot steps _ CowExit.brk st hloop (by simp)
                  (by simp) (by intro k hk; simp at hk)
                obtain ⟨hpos, ht, hb, hA⟩ := hinv.1 rfl
                have hres := cow_reassign_result st.log origTail
                  (st.appended.length - 1) st.begin_tail st.temp_tail hot
                  ht hb
                have hrr2 := Option.some.inj (hres.symm.trans hre)
                constructor
              · intro hb0
                rw [if_pos hb0] at hrr2
                rw [← hrr2] at hrr
                exact absurd hrr (by norm_num [einval])
              · intro hbne hw
                dsimp only at hw ⊢
                exact ssizeOfSizet_sizetOfInt _ (by omega) (by omega)
              · intro hb0
                rw [if_pos hb0] at hrr2
                dsimp only
                rw [← hrr2]
                exact ssizeOfSizet_sizetOfInt _ (by norm_num [einval])
                  (by norm_num [einval])
              · intro hbne hw
                rw [if_neg hbne] at hrr2
                exact absurd hrr2.symm hrr

/-- C1 failing input, formalised: blocksize 4, an 8-byte write whose first
iteration copies all 4 bytes into block 10 and whose second iteration
suffers a short user copy (2 of 4 bytes) into block 20.  The loop breaks
with `status = -EFAULT`, yet the function publishes the tail once
(excluding the failing iteration's appended entry at 1064), returns the
positive count 6, and frees nothing — contradicting the claim that the
cleanup pass frees the failing iteration's blocks on any early exit. -/
theorem nova_cow_file_write_unwind_counterexample :
    ∃ o : CowOut,
      nova_cow_file_write 4 7 0 0 false true
          [CowStep.ok 10 1 0 true, CowStep.ok 20 1 2 true] 8 0 1000
          (fun a => ⟨0, 0, 0, 0, 0, 0, 0, 0, 0⟩)
        = some o ∧
      o.exit = CowExit.brk ∧ o.cleanupRan = false ∧ o.freed = [] ∧
      o.ret = 6 ∧ o.appended = [(1000, 10, 1), (1064, 20, 1)] ∧
      o.pubTails = [1064] :=
  ⟨⟨6, 6, [1064], [(1000, 10, 1), (1064, 20, 1)], [], false, CowExit.brk,
    20, 1, 1000, 1064⟩, by decide, rfl, rfl, rfl, rfl, rfl, rfl⟩

/-- Witness for `nova_cow_file_write_no_cleanup`: a concrete goto-out
failure (second-iteration allocation failure, -ENOSPC) on which the
theorem shows the tail is never published, the error survives the
size_t→ssize_t round trip, and — the leak — nothing is freed. -/
theorem nova_cow_file_write_no_cleanup_witness :
    (nova_cow_file_write 4 7 0 0 false true
        [CowStep.ok 10 1 0 true, CowStep.allocFail 28] 8 0 1000
        (fun a => ⟨0, 0, 0, 0, 0, 0, 0, 0, 0⟩) = some cowWitOut) ∧
    (cowWitOut.cleanupRan = false ∧
     cowWitOut.freed = [] ∧
     (∀ r, cowWitOut.exit = CowExit.fail r →
       cowWitOut.pubTails = [] ∧
       cowWitOut.ret = ssizeOfSizet (sizetOfInt r)) ∧
     (false = false → true = true → (8 : Nat) ≠ 0 →
       (cowWitOut.exit = CowExit.done ∨ cowWitOut.exit = CowExit.brk) →
       cowWitOut.pubTails = [cowWitOut.temp_tail] ∧
       ((0 : Nat) < 1000 →
         (cowWitOut.begin_tail = 0 → cowWitOut.ret = -einval) ∧
         (cowWitOut.begin_tail ≠ 0 → cowWitOut.written < 2 ^ 63 →
           cowWitOut.ret = (cowWitOut.written : Int))))) :=
  ⟨by decide,
   nova_cow_file_write_no_cleanup 4 7 0 0 false true
     [CowStep.ok 10 1 0 true, CowStep.allocFail 28] 8 0 1000
     (fun a => ⟨0, 0, 0, 0, 0, 0, 0, 0, 0⟩) cowWitOut (by decide)⟩
